import Mathlib

/-!
Verification development for the plagiarism-analysis backend (`app.py`).

Texts are modelled as `List Char`.  Python floats are modelled exactly: the
lexical comparator (`difflib.SequenceMatcher(None, a, b).ratio()`) is a
rational number, and the statistical (tf-idf) comparator is a real number
(its idf weights involve a natural logarithm).  External collaborators
(semantic model, web-search provider, file-text extraction) are passed in as
oracle parameters, exactly at the boundaries the code calls them.
-/

namespace Plagio

/-! ### Lexical comparator: `difflib.SequenceMatcher(None, a, b).ratio()`

`analizar` calls `difflib.SequenceMatcher(None, texto_usuario, texto_base)
.ratio() * 100`.  With `isjunk=None` the junk set `bjunk` is empty, so of the
four extension loops in `find_longest_match` only the two non-junk ones can
run, and the two junk-extension loops are no-ops (their guard `isbjunk(...)`
is always false).  `autojunk` is on by default: when `len(b) >= 200`,
elements occurring more than `len(b) // 100 + 1` times in `b` are "popular"
and are dropped from the index `b2j`, so they cannot participate in the
inner matching scan (they can still be absorbed by the extension loops). -/

/-- Popular ("autojunk") elements of `b`: only when `len(b) >= 200`, the
elements with more than `len(b) // 100 + 1` occurrences in `b`. -/
def popularB (b : List Char) (c : Char) : Bool :=
  decide (200 ≤ b.length) && decide (b.length / 100 + 1 < b.count c)

/-- One cell of the matching scan inside the window `[alo,ahi) × [blo,bhi)`:
`a[i] == b[j]` and `b[j]` is indexed in `b2j` (i.e. not popular).  The
in-bounds conjuncts make the `getD` lookups total. -/
def matchOK (a b : List Char) (alo ahi blo bhi i j : Nat) : Bool :=
  decide (alo ≤ i) && decide (i < ahi) && decide (i < a.length) &&
  decide (blo ≤ j) && decide (j < bhi) && decide (j < b.length) &&
  (a.getD i ' ' == b.getD j ' ') && !(popularB b (b.getD j ' '))

theorem matchOK_bounds {a b : List Char} {alo ahi blo bhi i j : Nat}
    (h : matchOK a b alo ahi blo bhi i j = true) :
    alo ≤ i ∧ i < ahi ∧ i < a.length ∧ blo ≤ j ∧ j < bhi ∧ j < b.length := by
  simp only [matchOK, Bool.and_eq_true, decide_eq_true_eq] at h
  exact ⟨h.1.1.1.1.1.1.1, h.1.1.1.1.1.1.2, h.1.1.1.1.1.2, h.1.1.1.1.2, h.1.1.1.2, h.1.1.2⟩

/-- Fuel-indexed helper for `runLen`; the fuel `ahi - i` bounds the loop
(each matching cell has `i < ahi`), so the zero-fuel base case is never the
deciding one. -/
def runLenF (a b : List Char) (alo ahi blo bhi : Nat) : Nat → Nat → Nat → Nat
  | 0, _, _ => 0
  | fuel + 1, i, j =>
    if matchOK a b alo ahi blo bhi i j then
      runLenF a b alo ahi blo bhi fuel (i + 1) (j + 1) + 1
    else 0

/-- Length of the maximal diagonal run of matching cells starting at `(i,j)`
(the quantity accumulated by the `j2len` dictionary in
`find_longest_match`). -/
def runLen (a b : List Char) (alo ahi blo bhi i j : Nat) : Nat :=
  runLenF a b alo ahi blo bhi (ahi - i) i j

/-- The recurrence `runLen` satisfies (showing the fuel is adequate): a run
extends one cell at a time while cells match in the window. -/
theorem runLen_eq (a b : List Char) (alo ahi blo bhi i j : Nat) :
    runLen a b alo ahi blo bhi i j =
      if matchOK a b alo ahi blo bhi i j then
        runLen a b alo ahi blo bhi (i + 1) (j + 1) + 1
      else 0 := by
  unfold runLen
  rcases hf : ahi - i with _ | fuel
  · have hni : ¬ matchOK a b alo ahi blo bhi i j = true := by
      intro hm
      have := (matchOK_bounds hm).2.1
      omega
    rw [runLenF, if_neg hni]
  · rw [runLenF]
    by_cases hm : matchOK a b alo ahi blo bhi i j = true
    · rw [if_pos hm, if_pos hm]
      have : ahi - (i + 1) = fuel := by
        have := (matchOK_bounds hm).2.1
        omega
      rw [this]
    · rw [if_neg hm, if_neg hm]

/-- `(i,j)` starts a maximal run: it matches but `(i-1,j-1)` does not match
inside the window (this is where `j2len.get(j-1, 0)` returns `0`). -/
def runStart (a b : List Char) (alo ahi blo bhi i j : Nat) : Bool :=
  matchOK a b alo ahi blo bhi i j &&
  !(decide (alo < i) && decide (blo < j) &&
    matchOK a b alo ahi blo bhi (i - 1) (j - 1))

/-- All maximal runs `(i, j, length)` of the scan, enumerated in the scan
order of `find_longest_match` (outer loop `i` ascending, inner loop `j`
ascending). -/
def scanRuns (a b : List Char) (alo ahi blo bhi : Nat) : List (Nat × Nat × Nat) :=
  (List.range' alo (ahi - alo)).flatMap fun i =>
    (List.range' blo (bhi - blo)).filterMap fun j =>
      if runStart a b alo ahi blo bhi i j then
        some (i, j, runLen a b alo ahi blo bhi i j)
      else none

/-- The update step of `find_longest_match`: a candidate replaces the best
one found so far only when it is strictly longer (`if k > bestsize`). -/
def betterRun (best c : Nat × Nat × Nat) : Nat × Nat × Nat :=
  if best.2.2 < c.2.2 then c else best

/-- The best block of the scan phase of `find_longest_match`: the longest
maximal run, ties resolved to the first one completed in scan order, i.e.
smallest `i`, then smallest `j` (as documented by `difflib`: "starts
earliest in `a`, ... starts earliest in `b`").  Defaults to
`(alo, blo, 0)`. -/
def bestRun (a b : List Char) (alo ahi blo bhi : Nat) : Nat × Nat × Nat :=
  (scanRuns a b alo ahi blo bhi).foldl betterRun (alo, blo, 0)

/-- Fuel-indexed helper for `extendBack` (the fuel `i` bounds the loop:
each step requires `alo < i` and decrements `i`). -/
def extendBackF (a b : List Char) (alo blo : Nat) : Nat → Nat → Nat → Nat → Nat × Nat × Nat
  | 0, i, j, k => (i, j, k)
  | fuel + 1, i, j, k =>
    if alo < i ∧ blo < j ∧ i - 1 < a.length ∧ j - 1 < b.length ∧
        a.getD (i - 1) ' ' = b.getD (j - 1) ' ' then
      extendBackF a b alo blo fuel (i - 1) (j - 1) (k + 1)
    else (i, j, k)

/-- First extension loop of `find_longest_match` (with `bjunk = ∅`): extend
the best block backwards while the preceding elements are equal. -/
def extendBack (a b : List Char) (alo blo i j k : Nat) : Nat × Nat × Nat :=
  extendBackF a b alo blo i i j k

/-- Fuel-indexed helper for `extendFwd` (the fuel `ahi - (i + k)` bounds the
loop: each step requires `i + k < ahi` and increments `k`). -/
def extendFwdF (a b : List Char) (ahi bhi i j : Nat) : Nat → Nat → Nat × Nat × Nat
  | 0, k => (i, j, k)
  | fuel + 1, k =>
    if i + k < ahi ∧ j + k < bhi ∧ i + k < a.length ∧ j + k < b.length ∧
        a.getD (i + k) ' ' = b.getD (j + k) ' ' then
      extendFwdF a b ahi bhi i j fuel (k + 1)
    else (i, j, k)

/-- Second extension loop of `find_longest_match` (with `bjunk = ∅`): extend
the best block forwards while the following elements are equal. -/
def extendFwd (a b : List Char) (ahi bhi i j k : Nat) : Nat × Nat × Nat :=
  extendFwdF a b ahi bhi i j (ahi - (i + k)) k

/-- `find_longest_match(alo, ahi, blo, bhi)` for `SequenceMatcher(None,a,b)`:
the scan phase followed by the two (non-junk) extension loops; the two
junk-extension loops are no-ops because `bjunk` is empty. -/
def findLongestMatch (a b : List Char) (alo ahi blo bhi : Nat) : Nat × Nat × Nat :=
  let bst := bestRun a b alo ahi blo bhi
  let bk := extendBack a b alo blo bst.1 bst.2.1 bst.2.2
  extendFwd a b ahi bhi bk.1 bk.2.1 bk.2.2

/-- A block `(i,j,k)` lies inside the window `[alo,ahi) × [blo,bhi)`. -/
def Bounded (alo ahi blo bhi : Nat) (m : Nat × Nat × Nat) : Prop :=
  alo ≤ m.1 ∧ m.1 + m.2.2 ≤ ahi ∧ blo ≤ m.2.1 ∧ m.2.1 + m.2.2 ≤ bhi

theorem runLenF_le (a b : List Char) (alo ahi blo bhi : Nat) :
    ∀ (fuel i j : Nat), runLenF a b alo ahi blo bhi fuel i j ≤ fuel := by
  intro fuel
  induction fuel with
  | zero => intro i j; rw [runLenF]
  | succ fuel ih =>
    intro i j
    rw [runLenF]
    split
    · have := ih (i + 1) (j + 1)
      omega
    · omega

theorem runLenF_le_right (a b : List Char) (alo ahi blo bhi : Nat) :
    ∀ (fuel i j : Nat), runLenF a b alo ahi blo bhi fuel i j ≤ bhi - j := by
  intro fuel
  induction fuel with
  | zero => intro i j; rw [runLenF]; omega
  | succ fuel ih =>
    intro i j
    rw [runLenF]
    split
    · rename_i hm
      have hb := matchOK_bounds hm
      have := ih (i + 1) (j + 1)
      omega
    · omega

theorem runLen_le_left (a b : List Char) (alo ahi blo bhi i j : Nat) :
    runLen a b alo ahi blo bhi i j ≤ ahi - i :=
  runLenF_le a b alo ahi blo bhi (ahi - i) i j

theorem runLen_le_right (a b : List Char) (alo ahi blo bhi i j : Nat) :
    runLen a b alo ahi blo bhi i j ≤ bhi - j :=
  runLenF_le_right a b alo ahi blo bhi (ahi - i) i j

theorem runLen_pos {a b : List Char} {alo ahi blo bhi i j : Nat}
    (hm : matchOK a b alo ahi blo bhi i j = true) :
    0 < runLen a b alo ahi blo bhi i j := by
  rw [runLen_eq, if_pos hm]
  omega

theorem bounded_mk {alo ahi blo bhi i j k : Nat} :
    Bounded alo ahi blo bhi (i, j, k) ↔
      alo ≤ i ∧ i + k ≤ ahi ∧ blo ≤ j ∧ j + k ≤ bhi := Iff.rfl

theorem scanRuns_mem {a b : List Char} {alo ahi blo bhi : Nat}
    {c : Nat × Nat × Nat} (hc : c ∈ scanRuns a b alo ahi blo bhi) :
    runStart a b alo ahi blo bhi c.1 c.2.1 = true ∧
      c.2.2 = runLen a b alo ahi blo bhi c.1 c.2.1 := by
  simp only [scanRuns, List.mem_flatMap, List.mem_filterMap, List.mem_range'_1] at hc
  obtain ⟨i, hi, j, hj, h⟩ := hc
  by_cases hs : runStart a b alo ahi blo bhi i j = true
  · rw [if_pos hs] at h
    cases h
    exact ⟨hs, rfl⟩
  · rw [if_neg hs] at h
    cases h

theorem scanRuns_complete {a b : List Char} {alo ahi blo bhi i j : Nat}
    (hs : runStart a b alo ahi blo bhi i j = true) :
    (i, j, runLen a b alo ahi blo bhi i j) ∈ scanRuns a b alo ahi blo bhi := by
  have hm : matchOK a b alo ahi blo bhi i j = true := by
    simp only [runStart, Bool.and_eq_true] at hs
    exact hs.1
  have hb := matchOK_bounds hm
  simp only [scanRuns, List.mem_flatMap, List.mem_filterMap, List.mem_range'_1]
  refine ⟨i, ⟨hb.1, ?_⟩, j, ⟨hb.2.2.2.1, ?_⟩, ?_⟩
  · omega
  · omega
  · rw [if_pos hs]

theorem scanRuns_bounded {a b : List Char} {alo ahi blo bhi : Nat}
    {c : Nat × Nat × Nat} (hc : c ∈ scanRuns a b alo ahi blo bhi) :
    Bounded alo ahi blo bhi c := by
  obtain ⟨hs, hk⟩ := scanRuns_mem hc
  have hm : matchOK a b alo ahi blo bhi c.1 c.2.1 = true := by
    simp only [runStart, Bool.and_eq_true] at hs
    exact hs.1
  have hb := matchOK_bounds hm
  have h1 := runLen_le_left a b alo ahi blo bhi c.1 c.2.1
  have h2 := runLen_le_right a b alo ahi blo bhi c.1 c.2.1
  refine ⟨hb.1, ?_, hb.2.2.2.1, ?_⟩ <;> omega

theorem foldl_betterRun_bounded {alo ahi blo bhi : Nat}
    (l : List (Nat × Nat × Nat)) (init : Nat × Nat × Nat)
    (h0 : Bounded alo ahi blo bhi init)
    (hl : ∀ c ∈ l, Bounded alo ahi blo bhi c) :
    Bounded alo ahi blo bhi (l.foldl betterRun init) := by
  induction l generalizing init with
  | nil => exact h0
  | cons c rest ih =>
    refine ih (betterRun init c) ?_ (fun d hd => hl d (List.mem_cons_of_mem c hd))
    unfold betterRun
    by_cases hcc : init.2.2 < c.2.2
    · rw [if_pos hcc]
      exact hl c (List.mem_cons_self c rest)
    · rw [if_neg hcc]
      exact h0

theorem bestRun_bounded (a b : List Char) {alo ahi blo bhi : Nat}
    (h1 : alo ≤ ahi) (h2 : blo ≤ bhi) :
    Bounded alo ahi blo bhi (bestRun a b alo ahi blo bhi) := by
  refine foldl_betterRun_bounded _ _ ⟨le_refl _, ?_, le_refl _, ?_⟩
    (fun c hc => scanRuns_bounded hc)
  · simpa using h1
  · simpa using h2

theorem extendBackF_bounded (a b : List Char) {alo blo ahi bhi : Nat} :
    ∀ (fuel i j k : Nat), Bounded alo ahi blo bhi (i, j, k) →
      Bounded alo ahi blo bhi (extendBackF a b alo blo fuel i j k) := by
  intro fuel
  induction fuel with
  | zero => intro i j k h; exact h
  | succ fuel ih =>
    intro i j k h
    rw [extendBackF]
    split
    · rename_i hc
      refine ih (i - 1) (j - 1) (k + 1) ?_
      rw [bounded_mk] at h ⊢
      obtain ⟨hc1, hc2, -⟩ := hc
      omega
    · exact h

theorem extendBack_bounded (a b : List Char) {alo blo : Nat} {ahi bhi : Nat}
    (i j k : Nat) (h : Bounded alo ahi blo bhi (i, j, k)) :
    Bounded alo ahi blo bhi (extendBack a b alo blo i j k) :=
  extendBackF_bounded a b i i j k h

theorem extendFwdF_bounded (a b : List Char) {alo blo ahi bhi : Nat} (i j : Nat) :
    ∀ (fuel k : Nat), Bounded alo ahi blo bhi (i, j, k) →
      Bounded alo ahi blo bhi (extendFwdF a b ahi bhi i j fuel k) := by
  intro fuel
  induction fuel with
  | zero => intro k h; exact h
  | succ fuel ih =>
    intro k h
    rw [extendFwdF]
    split
    · rename_i hc
      refine ih (k + 1) ?_
      rw [bounded_mk] at h ⊢
      obtain ⟨hc1, hc2, -⟩ := hc
      omega
    · exact h

theorem extendFwd_bounded (a b : List Char) {alo blo ahi bhi : Nat}
    (i j k : Nat) (h : Bounded alo ahi blo bhi (i, j, k)) :
    Bounded alo ahi blo bhi (extendFwd a b ahi bhi i j k) :=
  extendFwdF_bounded a b i j (ahi - (i + k)) k h

theorem findLongestMatch_bounded (a b : List Char) {alo ahi blo bhi : Nat}
    (h1 : alo ≤ ahi) (h2 : blo ≤ bhi) :
    Bounded alo ahi blo bhi (findLongestMatch a b alo ahi blo bhi) := by
  unfold findLongestMatch
  have hb := bestRun_bounded a b h1 h2
  have hk := @extendBack_bounded a b alo blo ahi bhi
    (bestRun a b alo ahi blo bhi).1 (bestRun a b alo ahi blo bhi).2.1
    (bestRun a b alo ahi blo bhi).2.2 hb
  exact extendFwd_bounded a b _ _ _ hk

/-- Fuel-indexed helper for `matchingBlocks`; `(ahi - alo) + (bhi - blo)`
strictly decreases into both sub-windows (the found block is non-empty and
inside the window), so that fuel is adequate. -/
def matchingBlocksF (a b : List Char) : Nat → Nat → Nat → Nat → Nat → List (Nat × Nat × Nat)
  | 0, _, _, _, _ => []
  | fuel + 1, alo, ahi, blo, bhi =>
    if alo < ahi ∧ blo < bhi then
      if (findLongestMatch a b alo ahi blo bhi).2.2 = 0 then []
      else
        matchingBlocksF a b fuel alo (findLongestMatch a b alo ahi blo bhi).1
            blo (findLongestMatch a b alo ahi blo bhi).2.1 ++
          findLongestMatch a b alo ahi blo bhi ::
            matchingBlocksF a b fuel
              ((findLongestMatch a b alo ahi blo bhi).1 +
                (findLongestMatch a b alo ahi blo bhi).2.2) ahi
              ((findLongestMatch a b alo ahi blo bhi).2.1 +
                (findLongestMatch a b alo ahi blo bhi).2.2) bhi
    else []

/-- `get_matching_blocks`, as the standard divide-and-conquer recursion: the
longest match of the current window, with the blocks of the sub-windows to
its left and to its right.  (CPython drives the same recursion with an
explicit queue and then merges adjacent blocks and appends a zero sentinel;
neither step changes the multiset sum of the block sizes, which is all
`ratio()` consumes.) -/
def matchingBlocks (a b : List Char) (alo ahi blo bhi : Nat) : List (Nat × Nat × Nat) :=
  matchingBlocksF a b ((ahi - alo) + (bhi - blo)) alo ahi blo bhi

/-- Total number of matched elements: the sum of the block sizes of
`get_matching_blocks` (the value `matches` in `ratio`). -/
def totalMatched (a b : List Char) : Nat :=
  ((matchingBlocks a b 0 a.length 0 b.length).map fun m => m.2.2).sum

/-- `SequenceMatcher(None, a, b).ratio()`, exactly (`_calculate_ratio`):
`2.0 * matches / (len(a) + len(b))`, and `1.0` when both are empty. -/
def ratioScore (a b : List Char) : ℚ :=
  if a.length + b.length = 0 then 1
  else 2 * (totalMatched a b : ℚ) / ((a.length : ℚ) + (b.length : ℚ))

/-- The lexical score of `analizar`:
`difflib.SequenceMatcher(None, texto_usuario, texto_base).ratio() * 100`. -/
def exactoScore (a b : List Char) : ℚ := ratioScore a b * 100

theorem matchingBlocksF_sum_le (a b : List Char) :
    ∀ (fuel alo ahi blo bhi : Nat),
      ((matchingBlocksF a b fuel alo ahi blo bhi).map fun m => m.2.2).sum ≤ ahi - alo ∧
        ((matchingBlocksF a b fuel alo ahi blo bhi).map fun m => m.2.2).sum ≤ bhi - blo := by
  intro fuel
  induction fuel with
  | zero =>
    intro alo ahi blo bhi
    rw [matchingBlocksF]
    simp
  | succ fuel ih =>
    intro alo ahi blo bhi
    rw [matchingBlocksF]
    split
    · rename_i h
      split
      · simp
      · have hb := findLongestMatch_bounded a b (Nat.le_of_lt h.1) (Nat.le_of_lt h.2)
        obtain ⟨b1, b2, b3, b4⟩ := hb
        have ih1 := ih alo (findLongestMatch a b alo ahi blo bhi).1
          blo (findLongestMatch a b alo ahi blo bhi).2.1
        have ih2 := ih ((findLongestMatch a b alo ahi blo bhi).1 +
            (findLongestMatch a b alo ahi blo bhi).2.2) ahi
          ((findLongestMatch a b alo ahi blo bhi).2.1 +
            (findLongestMatch a b alo ahi blo bhi).2.2) bhi
        simp only [List.map_append, List.map_cons, List.sum_append, List.sum_cons]
        omega
    · simp

theorem matchingBlocks_sum_le (a b : List Char) (alo ahi blo bhi : Nat) :
    ((matchingBlocks a b alo ahi blo bhi).map fun m => m.2.2).sum ≤ ahi - alo ∧
      ((matchingBlocks a b alo ahi blo bhi).map fun m => m.2.2).sum ≤ bhi - blo :=
  matchingBlocksF_sum_le a b ((ahi - alo) + (bhi - blo)) alo ahi blo bhi

theorem totalMatched_le_left (a b : List Char) : totalMatched a b ≤ a.length := by
  have h := (matchingBlocks_sum_le a b 0 a.length 0 b.length).1
  simpa [totalMatched] using h

theorem totalMatched_le_right (a b : List Char) : totalMatched a b ≤ b.length := by
  have h := (matchingBlocks_sum_le a b 0 a.length 0 b.length).2
  simpa [totalMatched] using h

theorem ratioScore_nonneg (a b : List Char) : 0 ≤ ratioScore a b := by
  unfold ratioScore
  by_cases h : a.length + b.length = 0
  · rw [if_pos h]
    norm_num
  · rw [if_neg h]
    have h1 : (0 : ℚ) ≤ (totalMatched a b : ℚ) := Nat.cast_nonneg _
    have h2 : (0 : ℚ) < (a.length : ℚ) + (b.length : ℚ) := by
      have : 0 < a.length + b.length := Nat.pos_of_ne_zero h
      push_cast
      exact_mod_cast this
    positivity

theorem ratioScore_le_one (a b : List Char) : ratioScore a b ≤ 1 := by
  unfold ratioScore
  by_cases h : a.length + b.length = 0
  · rw [if_pos h]
  · rw [if_neg h]
    have h2 : (0 : ℚ) < (a.length : ℚ) + (b.length : ℚ) := by
      have : 0 < a.length + b.length := Nat.pos_of_ne_zero h
      exact_mod_cast this
    rw [div_le_one h2]
    have h3 := totalMatched_le_left a b
    have h4 := totalMatched_le_right a b
    have : (totalMatched a b : ℚ) ≤ (a.length : ℚ) := by exact_mod_cast h3
    have : (totalMatched a b : ℚ) ≤ (b.length : ℚ) := by exact_mod_cast h4
    linarith

theorem exactoScore_nonneg (a b : List Char) : 0 ≤ exactoScore a b := by
  have := ratioScore_nonneg a b
  unfold exactoScore
  linarith

theorem exactoScore_le (a b : List Char) : exactoScore a b ≤ 100 := by
  have := ratioScore_le_one a b
  unfold exactoScore
  linarith

/-! ### Statistical comparator: `TfidfVectorizer().fit_transform([u, v])` +
`cosine_similarity`

sklearn defaults: `lowercase=True`; tokens are the maximal word-character
runs of length at least 2 (`token_pattern=r"(?u)\b\w\w+\b"`; word characters
are modelled for the ASCII range: alphanumeric or underscore); term
frequency is the raw count; `smooth_idf=True` gives
`idf(t) = ln((1 + n) / (1 + df(t))) + 1` with `n = 2` documents; rows are
l2-normalised (a zero row is left as zero), and `cosine_similarity` of the
two rows is their dot product after (idempotent) l2 normalisation.
`fit` raises `ValueError: empty vocabulary` when the two documents together
produce no token, which `analizar` does not catch; this is modelled by the
`Except` error. -/

def isWordChar (c : Char) : Bool := c.isAlphanum || c == '_'

/-- Split into maximal runs of word characters (`acc` is the reversed
current run). -/
def wordRunsAux : List Char → List Char → List (List Char)
  | [], acc => if acc.isEmpty then [] else [acc.reverse]
  | c :: rest, acc =>
    if isWordChar c then wordRunsAux rest (c :: acc)
    else if acc.isEmpty then wordRunsAux rest []
    else acc.reverse :: wordRunsAux rest []

/-- The token stream of one document: lowercase, split on non-word
characters, keep tokens of length ≥ 2. -/
def tokensOf (d : List Char) : List (List Char) :=
  (wordRunsAux (d.map Char.toLower) []).filter fun t => 2 ≤ t.length

/-- The fitted vocabulary of the 2-document corpus `[a, b]` (as a set; its
alphabetical ordering in sklearn only fixes column indices, which the
cosine does not depend on). -/
def vocabPair (a b : List Char) : Finset (List Char) :=
  (tokensOf a ++ tokensOf b).toFinset

/-- Document frequency of a term over the 2-document corpus. -/
def dfPair (a b : List Char) (t : List Char) : Nat :=
  (if t ∈ tokensOf a then 1 else 0) + (if t ∈ tokensOf b then 1 else 0)

/-- Smoothed idf over `n = 2` documents: `ln((1+2)/(1+df)) + 1`. -/
noncomputable def idfPair (a b : List Char) (t : List Char) : ℝ :=
  Real.log (3 / (1 + (dfPair a b t : ℝ))) + 1

/-- tf-idf weight of term `t` in the first row. -/
noncomputable def weightA (a b : List Char) (t : List Char) : ℝ :=
  ((tokensOf a).count t : ℝ) * idfPair a b t

/-- tf-idf weight of term `t` in the second row. -/
noncomputable def weightB (a b : List Char) (t : List Char) : ℝ :=
  ((tokensOf b).count t : ℝ) * idfPair a b t

noncomputable def dotAB (a b : List Char) : ℝ :=
  (vocabPair a b).sum fun t => weightA a b t * weightB a b t

noncomputable def dotAA (a b : List Char) : ℝ :=
  (vocabPair a b).sum fun t => weightA a b t * weightA a b t

noncomputable def dotBB (a b : List Char) : ℝ :=
  (vocabPair a b).sum fun t => weightB a b t * weightB a b t

/-- The l2 norm used for row normalisation; `sklearn.preprocessing.normalize`
replaces a zero norm by 1 (the row stays zero). -/
noncomputable def safeNorm (x : ℝ) : ℝ := if x = 0 then 1 else Real.sqrt x

/-- `cosine_similarity(row_u, row_v)[0][0]`. -/
noncomputable def cosSim (a b : List Char) : ℝ :=
  dotAB a b / (safeNorm (dotAA a b) * safeNorm (dotBB a b))

/-- The statistical score of `analizar`:
`cosine_similarity(vec[0:1], vec[1:2])[0][0] * 100`, or the uncaught
`ValueError` when the pair has an empty vocabulary. -/
noncomputable def statSimE (a b : List Char) : Except Unit ℝ :=
  if vocabPair a b = ∅ then .error () else .ok (cosSim a b * 100)

/-- The statistical score as a total function (the value of the `.ok`
branch). -/
noncomputable def tfidfScore (a b : List Char) : ℝ := cosSim a b * 100

/-! ### Semantic comparator, classifier, rounding, and helpers -/

/-- `similitud_semantica(t1, t2)`: `0` when `USE_IA` is off; with the model
oracle returning `none` for "model unavailable or encode/cos failed"
(both caught, degraded to `0`) and `some c` for a computed cosine, the
score is `float(cos) * 100`. -/
def similitudSemantica (useIA : Bool) (res : Option ℚ) : ℚ :=
  if useIA = false then 0
  else match res with
    | none => 0
    | some c => c * 100

/-- `clasificar_porcentaje(porc)`: top-down thresholds, first match wins. -/
noncomputable def clasificar (porc : ℝ) : String × String :=
  if 80 ≤ porc then ("PLAGIO", "rojo")
  else if 50 ≤ porc then ("SIMILITUD ALTA", "naranja")
  else if 30 ≤ porc then ("POSIBLE IA", "amarillo")
  else ("ORIGINAL", "verde")

/-- Round-half-to-even to an integer, on rationals (the tie rule of Python's
`round`; ties and values are modelled exactly rather than through binary
floating point). -/
def rheZ (x : ℚ) : ℤ :=
  if 2 * (x - ⌊x⌋) = 1 then (if Even ⌊x⌋ then ⌊x⌋ else ⌊x⌋ + 1)
  else ⌊x + 1 / 2⌋

/-- Python's `round(x, 2)` on rationals. -/
def round2Q (x : ℚ) : ℚ := (rheZ (x * 100) : ℚ) / 100

/-- Round-half-to-even to an integer, on reals. -/
noncomputable def rheR (x : ℝ) : ℤ :=
  if 2 * (x - ⌊x⌋) = 1 then (if Even ⌊x⌋ then ⌊x⌋ else ⌊x⌋ + 1)
  else ⌊x + 1 / 2⌋

/-- Python's `round(x, 2)` on reals. -/
noncomputable def round2R (x : ℝ) : ℝ := (rheR (x * 100) : ℝ) / 100

/-- ASCII whitespace stripped by Python's `str.strip()`. -/
def pyIsSpace (c : Char) : Bool :=
  c == ' ' || c == '\t' || c == '\n' || c == '\r' || c == '\x0b' || c == '\x0c'

/-- Python's `str.strip()` (ASCII whitespace). -/
def pyStrip (l : List Char) : List Char :=
  ((l.dropWhile pyIsSpace).reverse.dropWhile pyIsSpace).reverse

/-- `texto_usuario.split(".")[0][:200]`: the characters before the first
period, truncated to 200 characters. -/
def fraseClave (t : List Char) : List Char := (t.takeWhile fun c => c ≠ '.').take 200

/-- Index of the last `.` of a (separator-free) filename. -/
def lastDotIdx (n : List Char) : Option Nat :=
  match n.reverse.findIdx? fun c => c == '.' with
  | none => none
  | some r => some (n.length - 1 - r)

/-- `os.path.splitext(name)[1]` for a bare filename: the suffix from the
last dot on, except that a dot with only dots before it (a leading-dot
basename such as `.txt`) yields no extension. -/
def splitextExt (n : List Char) : List Char :=
  match lastDotIdx n with
  | none => []
  | some d => if (n.take d).any (fun c => c ≠ '.') then n.drop d else []

/-- The corpus filter of `analizar`:
`os.path.splitext(f.lower())[1] in (".txt", ".pdf", ".docx")`. -/
def extOK (nombre : String) : Bool :=
  [".txt".toList, ".pdf".toList, ".docx".toList].contains
    (splitextExt (nombre.toList.map Char.toLower))

/-- One search hit, after `buscar_en_web` maps the provider item to
`{titulo, enlace, descripcion}` (with its `.get` defaults). -/
structure WebHit where
  titulo : String
  enlace : String
  descripcion : String
deriving DecidableEq, Repr

/-- One step of the provider's result generator: it yields a hit or raises. -/
inductive WebEvent where
  | hit (h : WebHit)
  | fail
deriving DecidableEq, Repr

/-- `buscar_en_web`: append each yielded hit to `resultados`; any exception
(from the client constructor or mid-iteration) is caught and whatever was
accumulated so far is returned. -/
def buscarEnWeb : List WebEvent → List WebHit
  | [] => []
  | .hit h :: rest => h :: buscarEnWeb rest
  | .fail :: _ => []

/-- Process configuration and external collaborators: the `USE_IA` flag, the
semantic-model oracle (`none` = model unavailable / raised, `some c` =
cosine `c`), and the search provider (query and `max_results` to its
stream of generator events). -/
structure Config where
  useIA : Bool
  semCos : List Char → List Char → Option ℚ
  search : List Char → Nat → List WebEvent

/-- One entry of `resultados` in `analizar`, with the four `round(..., 2)`
applied exactly where the dict is built. -/
structure Resultado where
  archivo : String
  exacto : ℝ
  tfidf : ℝ
  semantico : ℝ
  promedioDoc : ℝ

/-- The comparison loop body of `analizar` for one (already stripped,
non-empty) corpus text. -/
noncomputable def compareDoc (cfg : Config) (textoUsuario : List Char)
    (nombre : String) (textoBase : List Char) : Except Unit Resultado :=
  match statSimE textoUsuario textoBase with
  | .error e => .error e
  | .ok tf =>
    let ex : ℝ := (exactoScore textoUsuario textoBase : ℝ)
    let sem : ℝ := (similitudSemantica cfg.useIA (cfg.semCos textoUsuario textoBase) : ℝ)
    let prom : ℝ := if cfg.useIA then (ex + tf + sem) / 3 else (ex + tf) / 2
    .ok ⟨nombre, round2R ex, round2R tf, round2R sem, round2R prom⟩

/-- The comparison loop of `analizar`: skip corpus documents whose extracted
text strips to empty; the first uncaught `ValueError` aborts the loop. -/
noncomputable def compareAll (cfg : Config) (textoUsuario : List Char) :
    List (String × List Char) → Except Unit (List Resultado)
  | [] => .ok []
  | (nombre, texto) :: rest =>
    let tb := pyStrip texto
    if tb.isEmpty then compareAll cfg textoUsuario rest
    else
      match compareDoc cfg textoUsuario nombre tb with
      | .error e => .error e
      | .ok r =>
        match compareAll cfg textoUsuario rest with
        | .error e => .error e
        | .ok rs => .ok (r :: rs)

/-- Stable-descending insertion (by the stored, rounded aggregate). -/
noncomputable def insDesc (x : Resultado) : List Resultado → List Resultado
  | [] => [x]
  | y :: ys => if y.promedioDoc < x.promedioDoc then x :: y :: ys else y :: insDesc x ys

/-- `resultados.sort(key=lambda r: r["promedio"], reverse=True)`: the stable
descending sort by stored aggregate (insertion formulation; stable sorts
under a total preorder agree extensionally). -/
noncomputable def sortDesc (l : List Resultado) : List Resultado :=
  l.foldl (fun acc x => insDesc x acc) []

/-- The fields returned by `analizar`: `promedioTotal` is the local
`promedio_total` (which feeds `clasificar_porcentaje`), `promedioTotalRep`
its `round(..., 2)` as put in the response JSON. -/
structure Report where
  resultados : List Resultado
  coincidenciasWeb : List WebHit
  similitudWeb : Nat
  promedioTotal : ℝ
  promedioTotalRep : ℝ
  clasificacion : String × String

/-- The three ways `analizar` can end: flash-and-redirect ("Debes
seleccionar un archivo." / "No se pudo leer el archivo."), an uncaught
exception (HTTP 500 aborting the analysis), or a JSON report. -/
inductive Outcome where
  | rejected
  | valueError
  | ok (r : Report)

/-- `promedio_total` of `analizar`: `0`, replaced by
`(resultados[0]["promedio"] + similitud_web) / 2` when `resultados` is
non-empty (note: `resultados[0]["promedio"]` is the stored, already-rounded
aggregate). -/
noncomputable def promedioTotalOf (rs : List Resultado) (simWeb : Nat) : ℝ :=
  match rs with
  | [] => 0
  | r :: _ => (r.promedioDoc + (simWeb : ℝ)) / 2

/-- `analizar`, from the extracted text of the uploaded file onwards (the
upload handling and `leer_texto` are external collaborators; `base` is the
corpus as (filename, extracted text) in `os.listdir` order). -/
noncomputable def analizar (cfg : Config) (base : List (String × List Char))
    (textoArchivo : List Char) : Outcome :=
  let textoUsuario := pyStrip textoArchivo
  if textoUsuario.isEmpty then .rejected
  else
    match compareAll cfg textoUsuario (base.filter fun d => extOK d.1) with
    | .error _ => .valueError
    | .ok res =>
      let rs := sortDesc res
      let hits := buscarEnWeb (cfg.search (fraseClave textoUsuario) 3)
      let simWeb : Nat := min (hits.length * 15) 100
      let promTotal : ℝ := promedioTotalOf rs simWeb
      .ok ⟨rs, hits, simWeb, promTotal, round2R promTotal, clasificar promTotal⟩

/-- Insert-or-overwrite one uploaded file in the corpus store (saving under
an existing name overwrites that file). -/
def upsertDoc (st : List (String × List Char)) (f : String × List Char) :
    List (String × List Char) :=
  if st.any fun p => p.1 = f.1 then st.map fun p => if p.1 = f.1 then f else p
  else st ++ [f]

/-- `subir_base`: every uploaded file with a non-empty filename is saved
into the corpus directory, whatever its extension. -/
def subirBase (store : List (String × List Char))
    (archivos : List (String × List Char)) : List (String × List Char) :=
  archivos.foldl (fun st f => if f.1 = "" then st else upsertDoc st f) store

/-- A ranked entry carrying a given stored aggregate score (used to state
the `classify` examples of the specification). -/
noncomputable def mkResultado (p : ℝ) : Resultado := ⟨"doc", 0, 0, 0, p⟩

/-- C1, counterexample to the claim as stated.  The specification's example
`classify(90, 10) → ("PLAGIARISM", "red")` is wrong on the code: with a
top-ranked aggregate of 90 and web score 10, `promedio_total` is
`(90 + 10) / 2 = 50`, and `clasificar_porcentaje(50)` returns
`("SIMILITUD ALTA", "naranja")` — the HIGH_SIMILARITY/orange class, not
PLAGIARISM/red.  Likewise `classify(60, 0)` gives overall 30, which is
POSSIBLE_AI/yellow, not HIGH_SIMILARITY/orange.  (The code's Spanish label
and colour strings "PLAGIO"/"rojo", "SIMILITUD ALTA"/"naranja",
"POSIBLE IA"/"amarillo", "ORIGINAL"/"verde" are what the specification
names PLAGIARISM/red, HIGH_SIMILARITY/orange, POSSIBLE_AI/yellow,
ORIGINAL/green.) -/
theorem c1_examples_counterexample :
    clasificar (promedioTotalOf [mkResultado 90] 10) = ("SIMILITUD ALTA", "naranja") ∧
    clasificar (promedioTotalOf [mkResultado 90] 10) ≠ ("PLAGIO", "rojo") ∧
    clasificar (promedioTotalOf [mkResultado 60] 0) = ("POSIBLE IA", "amarillo") ∧
    clasificar (promedioTotalOf [mkResultado 60] 0) ≠ ("SIMILITUD ALTA", "naranja") := by
  have h1 : promedioTotalOf [mkResultado 90] 10 = 50 := by
    show ((90 : ℝ) + (10 : Nat)) / 2 = 50
    norm_num
  have h2 : promedioTotalOf [mkResultado 60] 0 = 30 := by
    show ((60 : ℝ) + (0 : Nat)) / 2 = 30
    norm_num
  rw [h1, h2]
  unfold clasificar
  norm_num
  exact ⟨by decide, by decide⟩

/-- C1 (amended): `clasificar_porcentaje` maps the overall score top-down,
first match wins: `s ≥ 80` is PLAGIARISM/red (`"PLAGIO"/"rojo"`),
`50 ≤ s < 80` HIGH_SIMILARITY/orange (`"SIMILITUD ALTA"/"naranja"`),
`30 ≤ s < 50` POSSIBLE_AI/yellow (`"POSIBLE IA"/"amarillo"`), `s < 30`
ORIGINAL/green (`"ORIGINAL"/"verde"`); the overall score is `0` for an
empty ranked list and `(top aggregate + web score) / 2` otherwise.  The
specification's corrected examples: `classify(90,10)` → overall 50 →
HIGH_SIMILARITY/orange, `classify(60,0)` → overall 30 → POSSIBLE_AI/yellow,
`classify(0,60)` → overall 30 → POSSIBLE_AI/yellow, `classify(0,0)` →
overall 0 → ORIGINAL/green. -/
theorem c1_clasificar :
    (∀ s : ℝ, 80 ≤ s → clasificar s = ("PLAGIO", "rojo")) ∧
    (∀ s : ℝ, 50 ≤ s → s < 80 → clasificar s = ("SIMILITUD ALTA", "naranja")) ∧
    (∀ s : ℝ, 30 ≤ s → s < 50 → clasificar s = ("POSIBLE IA", "amarillo")) ∧
    (∀ s : ℝ, s < 30 → clasificar s = ("ORIGINAL", "verde")) ∧
    (∀ w : Nat, promedioTotalOf [] w = 0) ∧
    (∀ (x : Resultado) (xs : List Resultado) (w : Nat),
      promedioTotalOf (x :: xs) w = (x.promedioDoc + (w : ℝ)) / 2) ∧
    clasificar (promedioTotalOf [mkResultado 90] 10) = ("SIMILITUD ALTA", "naranja") ∧
    clasificar (promedioTotalOf [mkResultado 60] 0) = ("POSIBLE IA", "amarillo") ∧
    clasificar (promedioTotalOf [mkResultado 0] 60) = ("POSIBLE IA", "amarillo") ∧
    clasificar (promedioTotalOf [mkResultado 0] 0) = ("ORIGINAL", "verde") := by
  have hth : ∀ s : ℝ, (80 ≤ s → clasificar s = ("PLAGIO", "rojo")) ∧
      (50 ≤ s → s < 80 → clasificar s = ("SIMILITUD ALTA", "naranja")) ∧
      (30 ≤ s → s < 50 → clasificar s = ("POSIBLE IA", "amarillo")) ∧
      (s < 30 → clasificar s = ("ORIGINAL", "verde")) := by
    intro s
    unfold clasificar
    refine ⟨fun h => by rw [if_pos h], fun h1 h2 => ?_, fun h1 h2 => ?_, fun h => ?_⟩
    · rw [if_neg (by linarith), if_pos h1]
    · rw [if_neg (by linarith), if_neg (by linarith), if_pos h1]
    · rw [if_neg (by linarith), if_neg (by linarith), if_neg (by linarith)]
  have e1 : promedioTotalOf [mkResultado 90] 10 = 50 := by
    show ((90 : ℝ) + (10 : Nat)) / 2 = 50
    norm_num
  have e2 : promedioTotalOf [mkResultado 60] 0 = 30 := by
    show ((60 : ℝ) + (0 : Nat)) / 2 = 30
    norm_num
  have e3 : promedioTotalOf [mkResultado 0] 60 = 30 := by
    show ((0 : ℝ) + (60 : Nat)) / 2 = 30
    norm_num
  have e4 : promedioTotalOf [mkResultado 0] 0 = 0 := by
    show ((0 : ℝ) + (0 : Nat)) / 2 = 0
    norm_num
  refine ⟨fun s => (hth s).1, fun s => (hth s).2.1, fun s => (hth s).2.2.1,
    fun s => (hth s).2.2.2, fun w => rfl, fun x xs w => rfl, ?_, ?_, ?_, ?_⟩
  · rw [e1]
    exact (hth 50).2.1 (by norm_num) (by norm_num)
  · rw [e2]
    exact (hth 30).2.2.1 (by norm_num) (by norm_num)
  · rw [e3]
    exact (hth 30).2.2.1 (by norm_num) (by norm_num)
  · rw [e4]
    exact (hth 0).2.2.2 (by norm_num)

/-- C1, witness: the threshold clauses of `c1_clasificar` instantiated at
85, 60, 42 and 7. -/
theorem c1_clasificar_witness :
    clasificar 85 = ("PLAGIO", "rojo") ∧
    clasificar 60 = ("SIMILITUD ALTA", "naranja") ∧
    clasificar 42 = ("POSIBLE IA", "amarillo") ∧
    clasificar 7 = ("ORIGINAL", "verde") :=
  ⟨c1_clasificar.1 85 (by norm_num),
   c1_clasificar.2.1 60 (by norm_num) (by norm_num),
   c1_clasificar.2.2.1 42 (by norm_num) (by norm_num),
   c1_clasificar.2.2.2.1 7 (by norm_num)⟩

/-- A configuration with the semantic feature off, no semantic model, and a
search provider returning nothing. -/
def cfgPlain : Config := ⟨false, fun _ _ => none, fun _ _ => []⟩

/-- C2: the claim is the specification's requirement, and the code violates
it.  When both the submitted text and a corpus text tokenise to an empty
vocabulary (here `"a b"` vs `"c d"`: every token is a single character, and
the vectoriser keeps only tokens of length ≥ 2), `TfidfVectorizer().
fit_transform` raises `ValueError: empty vocabulary`, `analizar` has no
handler for it, and the in-flight analysis aborts instead of scoring the
pair 0. -/
theorem c2_empty_vocab_aborts :
    vocabPair "a b".toList "c d".toList = ∅ ∧
    statSimE "a b".toList "c d".toList = .error () ∧
    analizar cfgPlain [("base.txt", "c d".toList)] "a b".toList = .valueError := by
  refine ⟨by decide, ?_, ?_⟩
  · rw [statSimE, if_pos (by decide)]
  · show analizar cfgPlain [("base.txt", "c d".toList)] "a b".toList = .valueError
    unfold analizar
    rw [if_neg (by decide)]
    have hext : ([("base.txt", "c d".toList)].filter fun d => extOK d.1) =
        [("base.txt", "c d".toList)] := by decide
    rw [hext]
    unfold compareAll
    rw [if_neg (by decide)]
    unfold compareDoc
    rw [statSimE, if_pos (by decide)]

theorem clasificar_ge80 {s : ℝ} (h : 80 ≤ s) : clasificar s = ("PLAGIO", "rojo") := by
  rw [clasificar, if_pos h]

theorem clasificar_mid {s : ℝ} (h1 : 50 ≤ s) (h2 : s < 80) :
    clasificar s = ("SIMILITUD ALTA", "naranja") := by
  rw [clasificar, if_neg (by linarith), if_pos h1]

theorem clasificar_low {s : ℝ} (h1 : 30 ≤ s) (h2 : s < 50) :
    clasificar s = ("POSIBLE IA", "amarillo") := by
  rw [clasificar, if_neg (by linarith), if_neg (by linarith), if_pos h1]

theorem clasificar_lt30 {s : ℝ} (h : s < 30) : clasificar s = ("ORIGINAL", "verde") := by
  rw [clasificar, if_neg (by linarith), if_neg (by linarith), if_neg (by linarith)]

theorem rheR_ratCast (q : ℚ) : rheR (q : ℝ) = rheZ q := by
  unfold rheR rheZ
  rw [Rat.floor_cast]
  refine if_congr ?_ rfl ?_
  · constructor
    · intro h
      exact_mod_cast h
    · intro h
      exact_mod_cast h
  · rw [show ((q : ℝ) + 1 / 2) = (((q + 1 / 2 : ℚ)) : ℝ) by push_cast; ring,
      Rat.floor_cast]

theorem round2R_ratCast (q : ℚ) : round2R (q : ℝ) = ((round2Q q : ℚ) : ℝ) := by
  unfold round2R round2Q
  rw [show ((q : ℝ) * 100) = (((q * 100 : ℚ)) : ℝ) by push_cast; ring, rheR_ratCast]
  push_cast
  ring

theorem round2R_zero : round2R (0 : ℝ) = 0 := by
  rw [show ((0 : ℝ)) = (((0 : ℚ)) : ℝ) by norm_num, round2R_ratCast]
  norm_num [round2Q, rheZ]

theorem compareAll_all_skipped (cfg : Config) (u : List Char)
    (docs : List (String × List Char))
    (h : ∀ d ∈ docs, (pyStrip d.2).isEmpty = true) :
    compareAll cfg u docs = .ok [] := by
  induction docs with
  | nil => rfl
  | cons d rest ih =>
    rw [compareAll, if_pos (h d (List.mem_cons_self d rest))]
    exact ih fun e he => h e (List.mem_cons_of_mem d he)

/-- C5: with zero corpus documents (or every enumerated corpus document
skipped because its extracted text strips to empty), `analizar` completes
normally: empty ranked list, `promedio_total = 0` (both as used for
classification and as reported), and classification ORIGINAL/green
(`"ORIGINAL"/"verde"`). -/
theorem c5_empty_corpus (cfg : Config) (base : List (String × List Char))
    (t : List Char) (ht : (pyStrip t).isEmpty = false)
    (hskip : ∀ d ∈ base.filter (fun d => extOK d.1), (pyStrip d.2).isEmpty = true) :
    ∃ r : Report, analizar cfg base t = .ok r ∧ r.resultados = [] ∧
      r.promedioTotal = 0 ∧ r.promedioTotalRep = 0 ∧
      r.clasificacion = ("ORIGINAL", "verde") := by
  unfold analizar
  rw [if_neg (by rw [ht]; exact Bool.false_ne_true),
    compareAll_all_skipped cfg (pyStrip t) _ hskip]
  refine ⟨_, rfl, rfl, rfl, ?_, ?_⟩
  · show round2R (promedioTotalOf (sortDesc []) _) = 0
    show round2R (promedioTotalOf [] _) = 0
    show round2R 0 = 0
    exact round2R_zero
  · show clasificar (promedioTotalOf (sortDesc []) _) = _
    show clasificar (0 : ℝ) = _
    exact clasificar_lt30 (by norm_num)

/-- C5, witness: a corpus whose only file strips to whitespace-only text. -/
theorem c5_empty_corpus_witness :
    ∃ r : Report, analizar cfgPlain [("x.txt", "   ".toList)] "hello there".toList = .ok r ∧
      r.resultados = [] ∧ r.promedioTotal = 0 ∧ r.promedioTotalRep = 0 ∧
      r.clasificacion = ("ORIGINAL", "verde") :=
  c5_empty_corpus cfgPlain [("x.txt", "   ".toList)] "hello there".toList
    (by decide) (by decide)

/-- C6: in every produced report, the web-evidence list comes from querying
the search provider with the prefix of the (stripped) submitted text up to
the first period, truncated to 200 characters, and `max_results = 3`; the
web score is `min(count_of_results * 15, 100)`, so 3 results give 45 and 7
results give the cap 100.  The query shape itself: it has no period, is at
most 200 characters long, and is a prefix of the submitted text. -/
theorem c6_web_plausibility (cfg : Config) (base : List (String × List Char))
    (t : List Char) (r : Report) (h : analizar cfg base t = .ok r) :
    r.coincidenciasWeb = buscarEnWeb (cfg.search (fraseClave (pyStrip t)) 3) ∧
    r.similitudWeb = min (r.coincidenciasWeb.length * 15) 100 ∧
    (r.coincidenciasWeb.length = 3 → r.similitudWeb = 45) ∧
    (r.coincidenciasWeb.length = 7 → r.similitudWeb = 100) ∧
    fraseClave (pyStrip t) = ((pyStrip t).takeWhile fun c => c ≠ '.').take 200 ∧
    (fraseClave (pyStrip t)).length ≤ 200 ∧
    ('.' ∉ fraseClave (pyStrip t)) ∧
    (fraseClave (pyStrip t)) <+: ((pyStrip t).takeWhile fun c => c ≠ '.') := by
  unfold analizar at h
  simp only [] at h
  split at h
  · exact absurd h (by simp)
  · split at h
    · exact absurd h (by simp)
    · rename_i res hres
      have hr : r = ⟨sortDesc res, buscarEnWeb (cfg.search (fraseClave (pyStrip t)) 3),
          min ((buscarEnWeb (cfg.search (fraseClave (pyStrip t)) 3)).length * 15) 100,
          promedioTotalOf (sortDesc res)
            (min ((buscarEnWeb (cfg.search (fraseClave (pyStrip t)) 3)).length * 15) 100),
          round2R (promedioTotalOf (sortDesc res)
            (min ((buscarEnWeb (cfg.search (fraseClave (pyStrip t)) 3)).length * 15) 100)),
          clasificar (promedioTotalOf (sortDesc res)
            (min ((buscarEnWeb (cfg.search (fraseClave (pyStrip t)) 3)).length * 15) 100))⟩ := by
        injection h with h'
        exact h'.symm
      subst hr
      refine ⟨rfl, rfl, ?_, ?_, rfl, ?_, ?_, ?_⟩
      · intro hl
        have hl2 : (buscarEnWeb (cfg.search (fraseClave (pyStrip t)) 3)).length = 3 := hl
        show min ((buscarEnWeb (cfg.search (fraseClave (pyStrip t)) 3)).length * 15) 100 = 45
        omega
      · intro hl
        have hl2 : (buscarEnWeb (cfg.search (fraseClave (pyStrip t)) 3)).length = 7 := hl
        show min ((buscarEnWeb (cfg.search (fraseClave (pyStrip t)) 3)).length * 15) 100 = 100
        omega
      · exact List.length_take_le 200 _
      · intro hmem
        unfold fraseClave at hmem
        have := List.mem_takeWhile_imp (List.mem_of_mem_take hmem)
        simp at this
      · exact List.take_prefix 200 _

/-- C6, witness: a provider yielding exactly 3 hits, and one yielding 7. -/
theorem c6_web_plausibility_witness :
    ∃ r : Report,
      analizar ⟨false, fun _ _ => none,
          fun _ _ => List.replicate 3 (WebEvent.hit ⟨"t", "u", "d"⟩)⟩ []
          "hello. world".toList = .ok r ∧
      r.similitudWeb = 45 ∧
      (∃ s : Report,
        analizar ⟨false, fun _ _ => none,
            fun _ _ => List.replicate 7 (WebEvent.hit ⟨"t", "u", "d"⟩)⟩ []
            "hello. world".toList = .ok s ∧ s.similitudWeb = 100) := by
  refine ⟨_, rfl, ?_, _, rfl, ?_⟩
  · have h := c6_web_plausibility ⟨false, fun _ _ => none,
        fun _ _ => List.replicate 3 (WebEvent.hit ⟨"t", "u", "d"⟩)⟩ []
        "hello. world".toList _ rfl
    exact h.2.2.1 (by rw [h.1]; rfl)
  · have h := c6_web_plausibility ⟨false, fun _ _ => none,
        fun _ _ => List.replicate 7 (WebEvent.hit ⟨"t", "u", "d"⟩)⟩ []
        "hello. world".toList _ rfl
    exact h.2.2.2.1 (by rw [h.1]; rfl)

/-- A provider that yields two hits and then raises mid-iteration. -/
def cfgFailMid : Config :=
  ⟨false, fun _ _ => none,
    fun _ _ => [WebEvent.hit ⟨"t1", "u1", "d1"⟩, WebEvent.hit ⟨"t2", "u2", "d2"⟩,
      WebEvent.fail]⟩

/-- C7, counterexample to the claim as stated: `ddgs.text(...)` is a
generator and the `for` loop in `buscar_en_web` appends each hit as it is
yielded, so a provider failure *after* two hits leaves the two accumulated
hits in `resultados` — the web-evidence set is not empty and the score is
`min(2*15, 100) = 30`, not 0, even though the provider failed during this
analysis. -/
theorem c7_partial_results_counterexample :
    WebEvent.fail ∈ cfgFailMid.search (fraseClave (pyStrip "hello there".toList)) 3 ∧
    ∃ r : Report, analizar cfgFailMid [] "hello there".toList = .ok r ∧
      r.coincidenciasWeb = [⟨"t1", "u1", "d1"⟩, ⟨"t2", "u2", "d2"⟩] ∧
      r.coincidenciasWeb ≠ [] ∧ r.similitudWeb = 30 ∧ r.similitudWeb ≠ 0 := by
  refine ⟨by decide, _, rfl, rfl, by decide, rfl, by decide⟩

/-- C7 (amended): a search-provider failure is never fatal, and the
web-evidence list is exactly the hits yielded *before* the first failure —
in particular a failure before the first hit (including a client-constructor
failure) yields an empty list and score 0.  Formally: (i) `buscar_en_web`
returns the pre-failure prefix; (ii) with no failure it returns all hits;
(iii) web score is always `min(15 * count, 100)`, so a pre-hit failure
scores 0; (iv) the outcome kind of `analizar` (rejected / aborted-by-
`ValueError` / report produced) does not depend on the search provider at
all. -/
theorem c7_search_failure (pre : List WebHit) (post : List WebEvent)
    (ca cb : Config) (base : List (String × List Char)) (t : List Char)
    (hIA : ca.useIA = cb.useIA) (hSem : ca.semCos = cb.semCos) :
    buscarEnWeb (pre.map WebEvent.hit ++ WebEvent.fail :: post) = pre ∧
    buscarEnWeb (pre.map WebEvent.hit) = pre ∧
    buscarEnWeb (WebEvent.fail :: post) = [] ∧
    (∀ r : Report, analizar ca base t = .ok r →
      r.similitudWeb = min (r.coincidenciasWeb.length * 15) 100) ∧
    ((analizar ca base t = .rejected) ↔ (analizar cb base t = .rejected)) ∧
    ((analizar ca base t = .valueError) ↔ (analizar cb base t = .valueError)) ∧
    ((∃ r, analizar ca base t = .ok r) ↔ (∃ r, analizar cb base t = .ok r)) := by
  have hpre : ∀ (l : List WebHit) (rest : List WebEvent),
      buscarEnWeb (l.map WebEvent.hit ++ rest) = l ++ buscarEnWeb rest := by
    intro l
    induction l with
    | nil => intro rest; rfl
    | cons x xs ih =>
      intro rest
      show x :: buscarEnWeb (xs.map WebEvent.hit ++ rest) = _
      rw [ih]
      rfl
  have hcd : ∀ (u : List Char) (nm : String) (tb : List Char),
      compareDoc ca u nm tb = compareDoc cb u nm tb := by
    intro u nm tb
    unfold compareDoc
    rw [hIA, hSem]
  have hca : ∀ (u : List Char) (docs : List (String × List Char)),
      compareAll ca u docs = compareAll cb u docs := by
    intro u docs
    induction docs with
    | nil => rfl
    | cons d rest ih =>
      rw [compareAll, compareAll, hcd, ih]
  have hsim : ∀ r : Report, analizar ca base t = .ok r →
      r.similitudWeb = min (r.coincidenciasWeb.length * 15) 100 := by
    intro r h
    unfold analizar at h
    simp only [] at h
    split at h
    · exact absurd h (by simp)
    · split at h
      · exact absurd h (by simp)
      · injection h with h'
        subst h'
        rfl
  have hmap : ∀ ls : List WebHit, ls.map WebEvent.hit ++ [] = ls.map WebEvent.hit :=
    fun ls => List.append_nil _
  refine ⟨?_, ?_, rfl, hsim, ?_, ?_, ?_⟩
  · rw [hpre]
    exact List.append_nil _
  · rw [← hmap pre, hpre]
    exact List.append_nil _
  · unfold analizar
    simp only []
    split
    · simp
    · rw [hca]
      split <;> simp
  · unfold analizar
    simp only []
    split
    · simp
    · rw [hca]
      split <;> simp
  · unfold analizar
    simp only []
    split
    · simp
    · rw [hca]
      split
      · simp
      · constructor
        · intro
          exact ⟨_, rfl⟩
        · intro
          exact ⟨_, rfl⟩

/-- C7, witness: instantiating `c7_search_failure` with two pre-failure
hits, a post-failure tail, and two configurations sharing the semantic
oracle. -/
theorem c7_search_failure_witness :
    buscarEnWeb ([⟨"t1", "u1", "d1"⟩, ⟨"t2", "u2", "d2"⟩].map WebEvent.hit ++
        WebEvent.fail :: [WebEvent.hit ⟨"t3", "u3", "d3"⟩]) =
      [⟨"t1", "u1", "d1"⟩, ⟨"t2", "u2", "d2"⟩] ∧
    buscarEnWeb (WebEvent.fail :: [WebEvent.hit ⟨"t3", "u3", "d3"⟩]) = [] ∧
    ((analizar cfgPlain [] "hello there".toList = .valueError) ↔
      (analizar cfgFailMid [] "hello there".toList = .valueError)) := by
  have h := c7_search_failure [⟨"t1", "u1", "d1"⟩, ⟨"t2", "u2", "d2"⟩]
    [WebEvent.hit ⟨"t3", "u3", "d3"⟩] cfgPlain cfgFailMid [] "hello there".toList
    rfl rfl
  exact ⟨h.1, h.2.2.1, h.2.2.2.2.2.1⟩

theorem mem_insDesc {a x : Resultado} {l : List Resultado} :
    a ∈ insDesc x l → a = x ∨ a ∈ l := by
  induction l with
  | nil =>
    intro h
    rw [insDesc] at h
    simpa using h
  | cons y ys ih =>
    intro h
    rw [insDesc] at h
    by_cases hy : y.promedioDoc < x.promedioDoc
    · rw [if_pos hy] at h
      simp only [List.mem_cons] at h ⊢
      tauto
    · rw [if_neg hy] at h
      simp only [List.mem_cons] at h ⊢
      rcases h with h | h
      · tauto
      · rcases ih h with h | h <;> tauto

theorem mem_sortDesc_aux {a : Resultado} :
    ∀ (l : List Resultado) (acc : List Resultado),
      a ∈ l.foldl (fun acc x => insDesc x acc) acc → a ∈ acc ∨ a ∈ l := by
  intro l
  induction l with
  | nil => exact fun acc h => Or.inl h
  | cons x xs ih =>
    intro acc h
    rcases ih (insDesc x acc) h with h | h
    · rcases mem_insDesc h with h | h
      · simp [h]
      · exact Or.inl h
    · simp [h]

theorem mem_sortDesc {a : Resultado} {l : List Resultado} (h : a ∈ sortDesc l) :
    a ∈ l := by
  rcases mem_sortDesc_aux l [] h with h | h
  · cases h
  · exact h

theorem compareAll_archivo {cfg : Config} {u : List Char}
    {docs : List (String × List Char)} {rs : List Resultado}
    (h : compareAll cfg u docs = .ok rs) :
    ∀ x ∈ rs, ∃ d ∈ docs, x.archivo = d.1 := by
  induction docs generalizing rs with
  | nil =>
    rw [compareAll] at h
    injection h with h'
    subst h'
    intro x hx
    cases hx
  | cons d rest ih =>
    rw [compareAll] at h
    split at h
    · intro x hx
      obtain ⟨e, he, hx'⟩ := ih h x hx
      exact ⟨e, List.mem_cons_of_mem d he, hx'⟩
    · split at h
      · cases h
      · rename_i r hr
        split at h
        · cases h
        · rename_i rs' hrs
          injection h with h'
          subst h'
          intro x hx
          rcases List.mem_cons.mp hx with hx | hx
          · subst hx
            refine ⟨d, List.mem_cons_self d rest, ?_⟩
            unfold compareDoc at hr
            split at hr
            · cases hr
            · injection hr with hr'
              subst hr'
              rfl
          · obtain ⟨e, he, hx'⟩ := ih hrs x hx
            exact ⟨e, List.mem_cons_of_mem d he, hx'⟩

/-- C10: only corpus files whose lowercased filename has extension `.txt`,
`.pdf` or `.docx` (in the `os.path.splitext` sense) are enumerated and
compared — every entry of the ranked results comes from such a file, and a
corpus file stored under any other extension never contributes a result —
even though `subir_base` saves any uploaded file with a non-empty filename,
whatever its extension. -/
theorem c10_extension_filter (cfg : Config) (base : List (String × List Char))
    (t : List Char) (r : Report) (h : analizar cfg base t = .ok r) :
    (∀ x ∈ r.resultados, extOK x.archivo = true ∧ ∃ d ∈ base, x.archivo = d.1) ∧
    (∀ nm : String, extOK nm = false → ∀ x ∈ r.resultados, x.archivo ≠ nm) ∧
    (∀ (store : List (String × List Char)) (nm : String) (tx : List Char),
      nm ≠ "" → nm ∈ (subirBase store [(nm, tx)]).map Prod.fst) := by
  have hres : ∀ x ∈ r.resultados, ∃ d ∈ base.filter (fun d => extOK d.1),
      x.archivo = d.1 := by
    unfold analizar at h
    simp only [] at h
    split at h
    · exact absurd h (by simp)
    · split at h
      · exact absurd h (by simp)
      · rename_i res hres'
        injection h with h'
        subst h'
        intro x hx
        exact compareAll_archivo hres' x (mem_sortDesc hx)
  have hmain : ∀ x ∈ r.resultados, extOK x.archivo = true ∧ ∃ d ∈ base,
      x.archivo = d.1 := by
    intro x hx
    obtain ⟨d, hd, hx'⟩ := hres x hx
    refine ⟨?_, d, List.mem_of_mem_filter hd, hx'⟩
    rw [hx']
    exact (List.mem_filter.mp hd).2
  refine ⟨hmain, ?_, ?_⟩
  · intro nm hnm x hx heq
    have := (hmain x hx).1
    rw [heq, hnm] at this
    cases this
  · intro store nm tx hnm
    unfold subirBase
    show nm ∈ (if (nm, tx).1 = "" then store else upsertDoc store (nm, tx)).map Prod.fst
    rw [if_neg hnm]
    unfold upsertDoc
    by_cases hp : store.any (fun p => p.1 = (nm, tx).1) = true
    · rw [if_pos hp]
      simp only [List.any_eq_true, decide_eq_true_eq] at hp
      obtain ⟨p, hpmem, hpeq⟩ := hp
      simp only [List.mem_map]
      refine ⟨(nm, tx), ⟨p, hpmem, ?_⟩, rfl⟩
      simp [hpeq]
    · rw [if_neg hp]
      simp

/-- C10, witness: a `.md` corpus file is enumerated away (the report built
over a corpus holding only `doc.md` has no results), while `subir_base`
stores `weird.bin`; `extOK` is case-insensitive (`A.TXT` passes) and
rejects `.md`. -/
theorem c10_extension_filter_witness :
    extOK "doc.md" = false ∧ extOK "A.TXT" = true ∧ extOK "trabajo.DocX" = true ∧
    (∃ r : Report,
      analizar cfgPlain [("doc.md", "hello there".toList)] "hi all".toList = .ok r ∧
      (∀ x ∈ r.resultados, x.archivo ≠ "doc.md") ∧ r.resultados = []) ∧
    "weird.bin" ∈ (subirBase [] [("weird.bin", [])]).map Prod.fst := by
  refine ⟨by decide, by decide, by decide, ⟨_, rfl, ?_, rfl⟩, ?_⟩
  · exact (c10_extension_filter cfgPlain [("doc.md", "hello there".toList)]
      "hi all".toList _ rfl).2.1 "doc.md" (by decide)
  · exact (c10_extension_filter cfgPlain [("doc.md", "hello there".toList)]
      "hi all".toList _ rfl).2.2 [] "weird.bin" [] (by decide)

theorem rheR_le (y : ℝ) : (rheR y : ℝ) ≤ y + 1 / 2 := by
  unfold rheR
  split
  · rename_i htie
    have hy : y = (⌊y⌋ : ℝ) + 1 / 2 := by linarith
    split
    · push_cast
      linarith
    · push_cast
      linarith
  · exact le_trans (Int.floor_le (y + 1 / 2)) (le_refl _)

theorem rheR_ge (y : ℝ) : y - 1 / 2 ≤ (rheR y : ℝ) := by
  unfold rheR
  split
  · rename_i htie
    have hy : y = (⌊y⌋ : ℝ) + 1 / 2 := by linarith
    split
    · push_cast
      linarith
    · push_cast
      linarith
  · have := Int.lt_floor_add_one (y + 1 / 2)
    have h2 : (⌊y + 1 / 2⌋ : ℝ) + 1 > y + 1 / 2 := this
    linarith

theorem round2R_le_of_le {x : ℝ} {n : ℤ} (h : x ≤ (n : ℝ)) : round2R x ≤ (n : ℝ) := by
  unfold round2R
  have h1 : (rheR (x * 100) : ℝ) ≤ x * 100 + 1 / 2 := rheR_le _
  have h2 : rheR (x * 100) ≤ 100 * n := by
    rw [← Int.lt_add_one_iff]
    have : (rheR (x * 100) : ℝ) < (100 * n : ℤ) + 1 := by
      push_cast
      nlinarith
    exact_mod_cast this
  have h3 : (rheR (x * 100) : ℝ) ≤ ((100 * n : ℤ) : ℝ) := by exact_mod_cast h2
  push_cast at h3
  linarith

theorem round2R_ge_of_ge {x : ℝ} {n : ℤ} (h : (n : ℝ) ≤ x) : (n : ℝ) ≤ round2R x := by
  unfold round2R
  have h1 : x * 100 - 1 / 2 ≤ (rheR (x * 100) : ℝ) := rheR_ge _
  have h2 : 100 * n ≤ rheR (x * 100) := by
    rw [← Int.lt_add_one_iff]
    have : ((100 * n : ℤ) : ℝ) < (rheR (x * 100) : ℝ) + 1 := by
      push_cast
      nlinarith
    exact_mod_cast this
  have h3 : ((100 * n : ℤ) : ℝ) ≤ (rheR (x * 100) : ℝ) := by exact_mod_cast h2
  push_cast at h3
  linarith

/-- The semantic score as `analizar` computes it for one pair. -/
def semScore (cfg : Config) (u tb : List Char) : ℚ :=
  similitudSemantica cfg.useIA (cfg.semCos u tb)

/-- The unrounded aggregate of one pair (`promedio` before `round(..., 2)`). -/
noncomputable def promedioRaw (cfg : Config) (u tb : List Char) : ℝ :=
  if cfg.useIA then
    ((exactoScore u tb : ℝ) + tfidfScore u tb + (semScore cfg u tb : ℝ)) / 3
  else ((exactoScore u tb : ℝ) + tfidfScore u tb) / 2

theorem compareDoc_ok_inv {cfg : Config} {u tb : List Char} {nm : String}
    {x : Resultado} (h : compareDoc cfg u nm tb = .ok x) :
    vocabPair u tb ≠ ∅ ∧
      x = ⟨nm, round2R (exactoScore u tb : ℝ), round2R (tfidfScore u tb),
        round2R ((semScore cfg u tb : ℚ) : ℝ), round2R (promedioRaw cfg u tb)⟩ := by
  unfold compareDoc at h
  split at h
  · cases h
  · rename_i tf htf
    simp only [] at h
    unfold statSimE at htf
    split at htf
    · cases htf
    · rename_i hv
      injection htf with htf'
      subst htf'
      injection h with h'
      exact ⟨hv, h'.symm⟩

theorem compareAll_mem {cfg : Config} {u : List Char}
    {docs : List (String × List Char)} {rs : List Resultado}
    (h : compareAll cfg u docs = .ok rs) :
    ∀ x ∈ rs, ∃ d ∈ docs, (pyStrip d.2).isEmpty = false ∧
      compareDoc cfg u d.1 (pyStrip d.2) = .ok x := by
  induction docs generalizing rs with
  | nil =>
    rw [compareAll] at h
    injection h with h'
    subst h'
    intro x hx
    cases hx
  | cons d rest ih =>
    rw [compareAll] at h
    split at h
    · rename_i hskip
      intro x hx
      obtain ⟨e, he, hx'⟩ := ih h x hx
      exact ⟨e, List.mem_cons_of_mem d he, hx'⟩
    · rename_i hskip
      split at h
      · cases h
      · rename_i r hr
        split at h
        · cases h
        · rename_i rs' hrs
          injection h with h'
          subst h'
          intro x hx
          rcases List.mem_cons.mp hx with hx | hx
          · subst hx
            exact ⟨d, List.mem_cons_self d rest,
              Bool.not_eq_true _ ▸ hskip, hr⟩
          · obtain ⟨e, he, hx'⟩ := ih hrs x hx
            exact ⟨e, List.mem_cons_of_mem d he, hx'⟩

/-- C4: for every compared pair, the (unrounded) aggregate is the arithmetic
mean of the enabled comparator scores — divisor 3 (lexical + statistical +
semantic) when the semantic feature is enabled, divisor 2 (lexical +
statistical) when it is disabled — and with the feature disabled the
semantic score (and hence its reported, rounded field) is 0.  The stored
fields are exactly `round(score, 2)` of those scores. -/
theorem c4_aggregate (cfg : Config) (u tb : List Char) (nm : String)
    (hvocab : vocabPair u tb ≠ ∅) :
    ∃ res : Resultado, compareDoc cfg u nm tb = .ok res ∧
      (cfg.useIA = true → promedioRaw cfg u tb =
        ((exactoScore u tb : ℝ) + tfidfScore u tb + (semScore cfg u tb : ℝ)) / 3) ∧
      (cfg.useIA = false → promedioRaw cfg u tb =
        ((exactoScore u tb : ℝ) + tfidfScore u tb) / 2) ∧
      (cfg.useIA = false → semScore cfg u tb = 0 ∧ res.semantico = 0) ∧
      res.promedioDoc = round2R (promedioRaw cfg u tb) ∧
      res.exacto = round2R (exactoScore u tb : ℝ) ∧
      res.tfidf = round2R (tfidfScore u tb) ∧
      res.semantico = round2R ((semScore cfg u tb : ℚ) : ℝ) := by
  refine ⟨⟨nm, round2R (exactoScore u tb : ℝ), round2R (tfidfScore u tb),
    round2R ((semScore cfg u tb : ℚ) : ℝ), round2R (promedioRaw cfg u tb)⟩,
    ?_, ?_, ?_, ?_, rfl, rfl, rfl, rfl⟩
  · unfold compareDoc
    rw [statSimE, if_neg hvocab]
    rfl
  · intro hIA
    unfold promedioRaw
    rw [hIA]
    rfl
  · intro hIA
    unfold promedioRaw
    rw [hIA]
    rfl
  · intro hIA
    have hsem : semScore cfg u tb = 0 := by
      unfold semScore similitudSemantica
      rw [hIA]
      rfl
    refine ⟨hsem, ?_⟩
    show round2R ((semScore cfg u tb : ℚ) : ℝ) = 0
    rw [hsem]
    push_cast
    exact round2R_zero

/-- C4, witness: the disabled-semantic configuration on the pair
("hello world", "hello world"). -/
theorem c4_aggregate_witness :
    ∃ res : Resultado,
      compareDoc cfgPlain "hello world".toList "b.txt" "hello world".toList = .ok res ∧
      (cfgPlain.useIA = true → promedioRaw cfgPlain "hello world".toList "hello world".toList =
        ((exactoScore "hello world".toList "hello world".toList : ℝ) +
          tfidfScore "hello world".toList "hello world".toList +
          (semScore cfgPlain "hello world".toList "hello world".toList : ℝ)) / 3) ∧
      (cfgPlain.useIA = false → promedioRaw cfgPlain "hello world".toList "hello world".toList =
        ((exactoScore "hello world".toList "hello world".toList : ℝ) +
          tfidfScore "hello world".toList "hello world".toList) / 2) ∧
      (cfgPlain.useIA = false →
        semScore cfgPlain "hello world".toList "hello world".toList = 0 ∧
        res.semantico = 0) ∧
      res.promedioDoc = round2R (promedioRaw cfgPlain "hello world".toList "hello world".toList) ∧
      res.exacto = round2R (exactoScore "hello world".toList "hello world".toList : ℝ) ∧
      res.tfidf = round2R (tfidfScore "hello world".toList "hello world".toList) ∧
      res.semantico = round2R ((semScore cfgPlain "hello world".toList "hello world".toList : ℚ) : ℝ) :=
  c4_aggregate cfgPlain "hello world".toList "hello world".toList "b.txt" (by decide)

theorem dfPair_le_two (a b t : List Char) : dfPair a b t ≤ 2 := by
  unfold dfPair
  split <;> split <;> omega

theorem idfPair_ge_one (a b t : List Char) : 1 ≤ idfPair a b t := by
  unfold idfPair
  have hlog : 0 ≤ Real.log (3 / (1 + (dfPair a b t : ℝ))) := by
    apply Real.log_nonneg
    rw [le_div_iff (by positivity)]
    have := dfPair_le_two a b t
    have h2 : (dfPair a b t : ℝ) ≤ 2 := by exact_mod_cast this
    linarith
  linarith

theorem weightA_nonneg (a b t : List Char) : 0 ≤ weightA a b t := by
  unfold weightA
  have h1 := idfPair_ge_one a b t
  positivity

theorem weightB_nonneg (a b t : List Char) : 0 ≤ weightB a b t := by
  unfold weightB
  have h1 := idfPair_ge_one a b t
  positivity

theorem dotAB_nonneg (a b : List Char) : 0 ≤ dotAB a b :=
  Finset.sum_nonneg fun t _ => mul_nonneg (weightA_nonneg a b t) (weightB_nonneg a b t)

theorem dotAA_nonneg (a b : List Char) : 0 ≤ dotAA a b :=
  Finset.sum_nonneg fun t _ => mul_self_nonneg _

theorem dotBB_nonneg (a b : List Char) : 0 ≤ dotBB a b :=
  Finset.sum_nonneg fun t _ => mul_self_nonneg _

theorem safeNorm_pos {x : ℝ} (hx : 0 ≤ x) : 0 < safeNorm x := by
  unfold safeNorm
  split
  · norm_num
  · rename_i hx0
    exact Real.sqrt_pos.mpr (lt_of_le_of_ne hx fun h => hx0 h.symm)

theorem cosSim_nonneg (a b : List Char) : 0 ≤ cosSim a b := by
  unfold cosSim
  have h1 := dotAB_nonneg a b
  have h2 := safeNorm_pos (dotAA_nonneg a b)
  have h3 := safeNorm_pos (dotBB_nonneg a b)
  positivity

theorem dotAB_le_norms (a b : List Char) :
    dotAB a b ≤ safeNorm (dotAA a b) * safeNorm (dotBB a b) := by
  by_cases hAA : dotAA a b = 0
  · have hz : ∀ t ∈ vocabPair a b, weightA a b t * weightB a b t = 0 := by
      have := (Finset.sum_eq_zero_iff_of_nonneg
        (fun t _ => mul_self_nonneg (weightA a b t))).mp hAA
      intro t ht
      have h0 : weightA a b t = 0 := by
        have := this t ht
        exact mul_self_eq_zero.mp this
      rw [h0, zero_mul]
    have h0 : dotAB a b = 0 := Finset.sum_eq_zero hz
    rw [h0]
    exact le_of_lt (mul_pos (safeNorm_pos (dotAA_nonneg a b))
      (safeNorm_pos (dotBB_nonneg a b)))
  · by_cases hBB : dotBB a b = 0
    · have hz : ∀ t ∈ vocabPair a b, weightA a b t * weightB a b t = 0 := by
        have := (Finset.sum_eq_zero_iff_of_nonneg
          (fun t _ => mul_self_nonneg (weightB a b t))).mp hBB
        intro t ht
        have h0 : weightB a b t = 0 := by
          have := this t ht
          exact mul_self_eq_zero.mp this
        rw [h0, mul_zero]
      have h0 : dotAB a b = 0 := Finset.sum_eq_zero hz
      rw [h0]
      exact le_of_lt (mul_pos (safeNorm_pos (dotAA_nonneg a b))
        (safeNorm_pos (dotBB_nonneg a b)))
    · have hcs : (dotAB a b) ^ 2 ≤ dotAA a b * dotBB a b := by
        have h := Finset.sum_mul_sq_le_sq_mul_sq (vocabPair a b)
          (weightA a b) (weightB a b)
        have e1 : dotAA a b = (vocabPair a b).sum fun t => weightA a b t ^ 2 := by
          unfold dotAA
          exact Finset.sum_congr rfl fun t _ => (sq (weightA a b t)).symm
        have e2 : dotBB a b = (vocabPair a b).sum fun t => weightB a b t ^ 2 := by
          unfold dotBB
          exact Finset.sum_congr rfl fun t _ => (sq (weightB a b t)).symm
        rw [e1, e2]
        exact h
      have hs : safeNorm (dotAA a b) = Real.sqrt (dotAA a b) := by
        unfold safeNorm
        rw [if_neg hAA]
      have hs2 : safeNorm (dotBB a b) = Real.sqrt (dotBB a b) := by
        unfold safeNorm
        rw [if_neg hBB]
      rw [hs, hs2, ← Real.sqrt_mul (dotAA_nonneg a b)]
      have h1 : dotAB a b = Real.sqrt ((dotAB a b) ^ 2) :=
        (Real.sqrt_sq (dotAB_nonneg a b)).symm
      rw [h1]
      exact Real.sqrt_le_sqrt hcs

theorem cosSim_le_one (a b : List Char) : cosSim a b ≤ 1 := by
  unfold cosSim
  rw [div_le_one (mul_pos (safeNorm_pos (dotAA_nonneg a b))
    (safeNorm_pos (dotBB_nonneg a b)))]
  exact dotAB_le_norms a b

theorem tfidfScore_nonneg (a b : List Char) : 0 ≤ tfidfScore a b := by
  unfold tfidfScore
  have := cosSim_nonneg a b
  linarith

theorem tfidfScore_le (a b : List Char) : tfidfScore a b ≤ 100 := by
  unfold tfidfScore
  have := cosSim_le_one a b
  linarith

theorem similitudSemantica_le {useIA : Bool} {res : Option ℚ}
    (hres : ∀ c, res = some c → -1 ≤ c ∧ c ≤ 1) :
    -100 ≤ similitudSemantica useIA res ∧ similitudSemantica useIA res ≤ 100 := by
  unfold similitudSemantica
  split
  · norm_num
  · match res with
    | none => norm_num
    | some c =>
      obtain ⟨h1, h2⟩ := hres c rfl
      show -100 ≤ c * 100 ∧ c * 100 ≤ 100
      constructor <;> nlinarith

theorem similitudSemantica_nonneg {useIA : Bool} {res : Option ℚ}
    (hres : ∀ c, res = some c → 0 ≤ c) : 0 ≤ similitudSemantica useIA res := by
  unfold similitudSemantica
  split
  · norm_num
  · match res with
    | none => norm_num
    | some c =>
      have := hres c rfl
      show (0 : ℚ) ≤ c * 100
      nlinarith

/-- A configuration with the semantic feature enabled and a model whose
cosine for every pair is `-1/2` (embedding cosines live in `[-1, 1]` and may
be negative; the code multiplies by 100 with no clamping). -/
def cfgNegSem : Config := ⟨true, fun _ _ => some (-(1 / 2)), fun _ _ => []⟩

/-- C3, counterexample to the claim as stated: with the semantic comparator
enabled and the embedding cosine `-1/2`, the reported semantic score is
`-50`, outside `[0, 100]` (and the aggregate is dragged below the
lexical/statistical mean as well). -/
theorem c3_negative_semantic_counterexample :
    ∃ r : Report,
      analizar cfgNegSem [("b.txt", "hello world".toList)] "hello world".toList = .ok r ∧
      ∃ x : Resultado, r.resultados = [x] ∧
        x.semantico = -50 ∧ ¬ (0 ≤ x.semantico ∧ x.semantico ≤ 100) := by
  refine ⟨_, rfl, _, rfl, ?_⟩
  have hfield : (similitudSemantica cfgNegSem.useIA
      (cfgNegSem.semCos "hello world".toList "hello world".toList) : ℚ) = -50 := by
    show similitudSemantica true (some (-(1 / 2))) = -50
    unfold similitudSemantica
    norm_num
  constructor
  · show round2R ((similitudSemantica cfgNegSem.useIA
      (cfgNegSem.semCos "hello world".toList "hello world".toList) : ℚ) : ℝ) = -50
    rw [hfield, round2R_ratCast]
    norm_num [round2Q, rheZ]
  · intro hcon
    have h1 : (0 : ℝ) ≤ round2R ((similitudSemantica cfgNegSem.useIA
        (cfgNegSem.semCos "hello world".toList "hello world".toList) : ℚ) : ℝ) := hcon.1
    rw [hfield, round2R_ratCast] at h1
    norm_num [round2Q, rheZ] at h1

theorem analizar_ok_resultados {cfg : Config} {base : List (String × List Char)}
    {t : List Char} {r : Report} (h : analizar cfg base t = .ok r) :
    ∃ res, compareAll cfg (pyStrip t) (base.filter fun d => extOK d.1) = .ok res ∧
      r.resultados = sortDesc res := by
  unfold analizar at h
  simp only [] at h
  split at h
  · exact absurd h (by simp)
  · split at h
    · exact absurd h (by simp)
    · rename_i res hres
      injection h with h'
      subst h'
      exact ⟨res, hres, rfl⟩

/-- C3 (amended): in every produced report and for every compared pair, the
lexical and statistical scores lie in `[0, 100]`, and the semantic score
lies in `[-100, 100]`: it's `cosine * 100` with no clamping, so with the
semantic comparator enabled it is only guaranteed non-negative when the
model's cosine is non-negative.  The aggregate never exceeds 100; it is
non-negative whenever the semantic feature is disabled or the cosine is
non-negative. -/
theorem c3_score_bounds (cfg : Config) (base : List (String × List Char))
    (t : List Char) (r : Report) (h : analizar cfg base t = .ok r)
    (hcos : ∀ t1 t2 c, cfg.semCos t1 t2 = some c → -1 ≤ c ∧ c ≤ 1) :
    ∀ x ∈ r.resultados,
      (0 ≤ x.exacto ∧ x.exacto ≤ 100) ∧
      (0 ≤ x.tfidf ∧ x.tfidf ≤ 100) ∧
      (-100 ≤ x.semantico ∧ x.semantico ≤ 100) ∧
      x.promedioDoc ≤ 100 ∧
      (cfg.useIA = false → x.semantico = 0 ∧ 0 ≤ x.promedioDoc) ∧
      ((∀ t1 t2 c, cfg.semCos t1 t2 = some c → 0 ≤ c) →
        0 ≤ x.semantico ∧ 0 ≤ x.promedioDoc) := by
  intro x hx
  obtain ⟨res, hres, hlist⟩ := analizar_ok_resultados h
  rw [hlist] at hx
  obtain ⟨d, hd, hne, hcd⟩ := compareAll_mem hres x (mem_sortDesc hx)
  obtain ⟨hv, hxeq⟩ := compareDoc_ok_inv hcd
  subst hxeq
  set u := pyStrip t
  set tb := pyStrip d.2
  have hex0 : (0 : ℝ) ≤ (exactoScore u tb : ℝ) := by
    exact_mod_cast exactoScore_nonneg u tb
  have hex1 : (exactoScore u tb : ℝ) ≤ 100 := by
    exact_mod_cast exactoScore_le u tb
  have htf0 := tfidfScore_nonneg u tb
  have htf1 := tfidfScore_le u tb
  have hsem := @similitudSemantica_le cfg.useIA (cfg.semCos u tb)
    (fun c hc => hcos u tb c hc)
  have hsem0 : (-100 : ℝ) ≤ ((semScore cfg u tb : ℚ) : ℝ) := by
    have := hsem.1
    unfold semScore
    exact_mod_cast this
  have hsem1 : ((semScore cfg u tb : ℚ) : ℝ) ≤ 100 := by
    have := hsem.2
    unfold semScore
    exact_mod_cast this
  have hprom1 : promedioRaw cfg u tb ≤ 100 := by
    unfold promedioRaw
    split <;> [skip; skip] <;> linarith
  refine ⟨⟨?_, ?_⟩, ⟨?_, ?_⟩, ⟨?_, ?_⟩, ?_, ?_, ?_⟩
  · show (0 : ℝ) ≤ round2R (exactoScore u tb : ℝ)
    have := round2R_ge_of_ge (n := 0) (by push_cast; exact hex0)
    simpa using this
  · show round2R (exactoScore u tb : ℝ) ≤ 100
    have := round2R_le_of_le (n := 100) (by push_cast; exact hex1)
    simpa using this
  · show (0 : ℝ) ≤ round2R (tfidfScore u tb)
    have := round2R_ge_of_ge (n := 0) (by push_cast; exact htf0)
    simpa using this
  · show round2R (tfidfScore u tb) ≤ 100
    have := round2R_le_of_le (n := 100) (by push_cast; exact htf1)
    simpa using this
  · show (-100 : ℝ) ≤ round2R ((semScore cfg u tb : ℚ) : ℝ)
    have := round2R_ge_of_ge (n := -100) (by push_cast; exact hsem0)
    have h2 : ((-100 : ℤ) : ℝ) = (-100 : ℝ) := by push_cast; ring
    rw [h2] at this
    exact this
  · show round2R ((semScore cfg u tb : ℚ) : ℝ) ≤ 100
    have := round2R_le_of_le (n := 100) (by push_cast; exact hsem1)
    simpa using this
  · show round2R (promedioRaw cfg u tb) ≤ 100
    have := round2R_le_of_le (n := 100) (by push_cast; exact hprom1)
    simpa using this
  · intro hIA
    have hsz : semScore cfg u tb = 0 := by
      unfold semScore similitudSemantica
      rw [hIA]
      rfl
    constructor
    · show round2R ((semScore cfg u tb : ℚ) : ℝ) = 0
      rw [hsz]
      push_cast
      exact round2R_zero
    · show (0 : ℝ) ≤ round2R (promedioRaw cfg u tb)
      have hpr : (0 : ℝ) ≤ promedioRaw cfg u tb := by
        unfold promedioRaw
        rw [hIA]
        show (0 : ℝ) ≤ ((exactoScore u tb : ℝ) + tfidfScore u tb) / 2
        linarith
      have := round2R_ge_of_ge (n := 0) (by push_cast; exact hpr)
      simpa using this
  · intro hpos
    have hsp : (0 : ℚ) ≤ semScore cfg u tb :=
      similitudSemantica_nonneg fun c hc => hpos u tb c hc
    have hspR : (0 : ℝ) ≤ ((semScore cfg u tb : ℚ) : ℝ) := by exact_mod_cast hsp
    constructor
    · show (0 : ℝ) ≤ round2R ((semScore cfg u tb : ℚ) : ℝ)
      have := round2R_ge_of_ge (n := 0) (by push_cast; exact hspR)
      simpa using this
    · show (0 : ℝ) ≤ round2R (promedioRaw cfg u tb)
      have hpr : (0 : ℝ) ≤ promedioRaw cfg u tb := by
        unfold promedioRaw
        split <;> linarith
      have := round2R_ge_of_ge (n := 0) (by push_cast; exact hpr)
      simpa using this

/-- C3, witness: the bounds instantiated on a real run (semantic disabled,
one corpus document, identical texts). -/
theorem c3_score_bounds_witness :
    ∃ r : Report,
      analizar cfgPlain [("b.txt", "hello world".toList)] "hello there".toList = .ok r ∧
      ∀ x ∈ r.resultados,
        (0 ≤ x.exacto ∧ x.exacto ≤ 100) ∧ (0 ≤ x.tfidf ∧ x.tfidf ≤ 100) ∧
        (-100 ≤ x.semantico ∧ x.semantico ≤ 100) ∧ x.promedioDoc ≤ 100 := by
  refine ⟨_, rfl, ?_⟩
  intro x hx
  have h := c3_score_bounds cfgPlain [("b.txt", "hello world".toList)]
    "hello there".toList _ rfl (fun t1 t2 c hc => by cases hc) x hx
  exact ⟨h.1, h.2.1, h.2.2.1, h.2.2.2.1⟩

theorem perm_count_eq {l1 l2 : List (List Char)} (hp : l1.Perm l2)
    (t : List Char) : l1.count t = l2.count t := by
  induction hp with
  | nil => rfl
  | cons x h ih => simp only [List.count_cons, ih]
  | swap x y l => simp only [List.count_cons]; omega
  | trans h1 h2 ih1 ih2 => exact ih1.trans ih2

theorem tfidfScore_eq_100_of_perm {a b : List Char}
    (hp : (tokensOf a).Perm (tokensOf b)) (hv : vocabPair a b ≠ ∅) :
    tfidfScore a b = 100 := by
  have hw : ∀ t, weightA a b t = weightB a b t := by
    intro t
    unfold weightA weightB
    rw [perm_count_eq hp t]
  have hAB : dotAB a b = dotAA a b := by
    unfold dotAB dotAA
    exact Finset.sum_congr rfl fun t _ => by rw [hw t]
  have hBB : dotBB a b = dotAA a b := by
    unfold dotBB dotAA
    exact Finset.sum_congr rfl fun t _ => by rw [hw t]
  have hpos : 0 < dotAA a b := by
    obtain ⟨t0, ht0⟩ := Finset.nonempty_iff_ne_empty.mpr hv
    have hmem : t0 ∈ tokensOf a ++ tokensOf b := List.mem_toFinset.mp ht0
    have hina : t0 ∈ tokensOf a := by
      rcases List.mem_append.mp hmem with h | h
      · exact h
      · exact hp.mem_iff.mpr h
    have hcount : 0 < (tokensOf a).count t0 := List.count_pos_iff.mpr hina
    have hwpos : 0 < weightA a b t0 := by
      unfold weightA
      have h1 : (1 : ℝ) ≤ ((tokensOf a).count t0 : ℝ) := by exact_mod_cast hcount
      have h2 := idfPair_ge_one a b t0
      nlinarith
    refine Finset.sum_pos' (fun t _ => mul_self_nonneg _) ⟨t0, ht0, ?_⟩
    exact mul_pos hwpos hwpos
  have hcos : cosSim a b = 1 := by
    unfold cosSim safeNorm
    rw [hAB, hBB, if_neg (ne_of_gt hpos), Real.mul_self_sqrt (le_of_lt hpos)]
    exact div_self (ne_of_gt hpos)
  unfold tfidfScore
  rw [hcos]
  norm_num

theorem exactoScore_aaa_bbb :
    exactoScore "aaa bbb".toList "bbb aaa".toList = 300 / 7 := by
  have htm : totalMatched "aaa bbb".toList "bbb aaa".toList = 3 := by decide
  unfold exactoScore ratioScore
  rw [htm]
  norm_num

theorem tfidf_aaa_bbb : tfidfScore "aaa bbb".toList "bbb aaa".toList = 100 := by
  refine tfidfScore_eq_100_of_perm ?_ (by decide)
  have h1 : tokensOf "aaa bbb".toList = ["aaa".toList, "bbb".toList] := by decide
  have h2 : tokensOf "bbb aaa".toList = ["bbb".toList, "aaa".toList] := by decide
  rw [h1, h2]
  exact List.Perm.swap _ _ _

theorem promedioRaw_aaa_bbb :
    promedioRaw cfgPlain "aaa bbb".toList "bbb aaa".toList = 500 / 7 := by
  unfold promedioRaw
  rw [if_neg (by decide), tfidf_aaa_bbb, exactoScore_aaa_bbb]
  push_cast
  norm_num

theorem round2Q_500_7 : round2Q (500 / 7) = 7143 / 100 := by
  have hfl : (⌊(500 / 7 * 100 : ℚ)⌋ : ℤ) = 7142 := by
    rw [Int.floor_eq_iff]
    norm_num
  have hfl2 : (⌊(500 / 7 * 100 + 1 / 2 : ℚ)⌋ : ℤ) = 7143 := by
    rw [Int.floor_eq_iff]
    norm_num
  unfold round2Q rheZ
  rw [hfl, hfl2, if_neg (by norm_num)]
  norm_num

theorem analizar_ok_fields {cfg : Config} {base : List (String × List Char)}
    {t : List Char} {r : Report} (h : analizar cfg base t = .ok r) :
    r.coincidenciasWeb = buscarEnWeb (cfg.search (fraseClave (pyStrip t)) 3) ∧
    r.similitudWeb = min (r.coincidenciasWeb.length * 15) 100 ∧
    r.promedioTotal = promedioTotalOf r.resultados r.similitudWeb ∧
    r.promedioTotalRep = round2R r.promedioTotal ∧
    r.clasificacion = clasificar r.promedioTotal := by
  unfold analizar at h
  simp only [] at h
  split at h
  · exact absurd h (by simp)
  · split at h
    · exact absurd h (by simp)
    · injection h with h'
      subst h'
      exact ⟨rfl, rfl, rfl, rfl, rfl⟩

/-- The single comparison row produced for ("aaa bbb", "bbb aaa") with the
semantic feature disabled. -/
noncomputable def resAaaBbb : Resultado :=
  ⟨"b.txt", round2R ((exactoScore "aaa bbb".toList "bbb aaa".toList : ℚ) : ℝ),
    round2R (tfidfScore "aaa bbb".toList "bbb aaa".toList),
    round2R ((semScore cfgPlain "aaa bbb".toList "bbb aaa".toList : ℚ) : ℝ),
    round2R (promedioRaw cfgPlain "aaa bbb".toList "bbb aaa".toList)⟩

/-- C8, counterexample to the claim as stated: `resultados` stores the
*rounded* aggregate (`"promedio": round(promedio, 2)`), and
`promedio_total = (resultados[0]["promedio"] + similitud_web) / 2` reads
that stored value — so the overall score is computed from the rounded, not
the unrounded, top aggregate.  Concretely, for submitted text `"aaa bbb"`
against the corpus document `"bbb aaa"`: lexical = 300/7, statistical = 100,
aggregate = 500/7 = 71.428571…, stored as 71.43; with web score 0 the code's
overall is (71.43 + 0)/2 = 35.715 = 7143/200, whereas the unrounded
aggregate would give 250/7 = 35.714285… . -/
theorem c8_rounds_before_overall_counterexample :
    ∃ r : Report,
      analizar cfgPlain [("b.txt", "bbb aaa".toList)] "aaa bbb".toList = .ok r ∧
      r.similitudWeb = 0 ∧
      promedioRaw cfgPlain "aaa bbb".toList "bbb aaa".toList = 500 / 7 ∧
      r.promedioTotal = 7143 / 200 ∧
      r.promedioTotal ≠
        (promedioRaw cfgPlain "aaa bbb".toList "bbb aaa".toList +
          (r.similitudWeb : ℝ)) / 2 := by
  obtain ⟨r, hr⟩ : ∃ r, analizar cfgPlain [("b.txt", "bbb aaa".toList)]
      "aaa bbb".toList = .ok r := ⟨_, rfl⟩
  obtain ⟨hweb, hsim, hpt, hrep, hcls⟩ := analizar_ok_fields hr
  obtain ⟨res, hres, hlist⟩ := analizar_ok_resultados hr
  have hresval : compareAll cfgPlain (pyStrip "aaa bbb".toList)
      ([("b.txt", "bbb aaa".toList)].filter fun d => extOK d.1) = .ok [resAaaBbb] := rfl
  rw [hresval] at hres
  injection hres with hres'
  subst hres'
  have hlist2 : r.resultados = [resAaaBbb] := hlist
  have hweb2 : r.coincidenciasWeb = [] := hweb
  have hsim2 : r.similitudWeb = 0 := by
    rw [hsim, hweb2]
    rfl
  have hprom : round2R (promedioRaw cfgPlain "aaa bbb".toList "bbb aaa".toList) =
      (7143 : ℝ) / 100 := by
    rw [promedioRaw_aaa_bbb,
      show ((500 : ℝ) / 7) = (((500 / 7 : ℚ)) : ℝ) by push_cast; norm_num,
      round2R_ratCast, round2Q_500_7]
    push_cast
    norm_num
  have hpt2 : r.promedioTotal = (7143 : ℝ) / 200 := by
    rw [hpt, hlist2, hsim2]
    show (resAaaBbb.promedioDoc + ((0 : Nat) : ℝ)) / 2 = (7143 : ℝ) / 200
    show (round2R (promedioRaw cfgPlain "aaa bbb".toList "bbb aaa".toList) +
      ((0 : Nat) : ℝ)) / 2 = (7143 : ℝ) / 200
    rw [hprom]
    norm_num
  refine ⟨r, hr, hsim2, promedioRaw_aaa_bbb, hpt2, ?_⟩
  rw [hpt2, hsim2, promedioRaw_aaa_bbb]
  norm_num

/-- C8 (amended): per-document scores are rounded to 2 decimals exactly once,
when the result row is stored — the per-document aggregate itself is
computed from the *unrounded* lexical/statistical/semantic values — but the
overall score is then computed from the *rounded* stored top aggregate, is
used unrounded for classification, and is rounded once more at the reported
boundary. -/
theorem c8_rounding_boundary (cfg : Config) (base : List (String × List Char))
    (t : List Char) (r : Report) (h : analizar cfg base t = .ok r) :
    (∀ x ∈ r.resultados, ∃ d ∈ base.filter (fun e => extOK e.1),
      x.exacto = round2R ((exactoScore (pyStrip t) (pyStrip d.2) : ℚ) : ℝ) ∧
      x.tfidf = round2R (tfidfScore (pyStrip t) (pyStrip d.2)) ∧
      x.semantico = round2R ((semScore cfg (pyStrip t) (pyStrip d.2) : ℚ) : ℝ) ∧
      x.promedioDoc = round2R (promedioRaw cfg (pyStrip t) (pyStrip d.2))) ∧
    (∀ (x : Resultado) (xs : List Resultado), r.resultados = x :: xs →
      r.promedioTotal = (x.promedioDoc + (r.similitudWeb : ℝ)) / 2) ∧
    (r.resultados = [] → r.promedioTotal = 0) ∧
    r.promedioTotalRep = round2R r.promedioTotal ∧
    r.clasificacion = clasificar r.promedioTotal := by
  obtain ⟨hweb, hsim, hpt, hrep, hcls⟩ := analizar_ok_fields h
  obtain ⟨res, hres, hlist⟩ := analizar_ok_resultados h
  refine ⟨?_, ?_, ?_, hrep, hcls⟩
  · intro x hx
    rw [hlist] at hx
    obtain ⟨d, hd, hne, hcd⟩ := compareAll_mem hres x (mem_sortDesc hx)
    obtain ⟨hv, hxeq⟩ := compareDoc_ok_inv hcd
    exact ⟨d, hd, by rw [hxeq], by rw [hxeq], by rw [hxeq], by rw [hxeq]⟩
  · intro x xs hxs
    rw [hpt, hxs]
    rfl
  · intro hnil
    rw [hpt, hnil]
    rfl

/-- C8, witness: the rounding-boundary structure instantiated on the
("aaa bbb", "bbb aaa") run. -/
theorem c8_rounding_boundary_witness :
    ∃ r : Report,
      analizar cfgPlain [("b.txt", "bbb aaa".toList)] "aaa bbb".toList = .ok r ∧
      r.promedioTotalRep = round2R r.promedioTotal ∧
      r.clasificacion = clasificar r.promedioTotal ∧
      ∀ x ∈ r.resultados, ∃ d ∈ [("b.txt", "bbb aaa".toList)].filter (fun e => extOK e.1),
        x.promedioDoc = round2R (promedioRaw cfgPlain
          (pyStrip "aaa bbb".toList) (pyStrip d.2)) := by
  obtain ⟨r, hr⟩ : ∃ r, analizar cfgPlain [("b.txt", "bbb aaa".toList)]
      "aaa bbb".toList = .ok r := ⟨_, rfl⟩
  have h := c8_rounding_boundary cfgPlain [("b.txt", "bbb aaa".toList)]
    "aaa bbb".toList r hr
  refine ⟨r, hr, h.2.2.2.1, h.2.2.2.2, ?_⟩
  intro x hx
  obtain ⟨d, hd, -, -, -, hp⟩ := h.1 x hx
  exact ⟨d, hd, hp⟩

/-! ### `ratio(t, t) = 1`: the scan best block over equal sequences is
diagonal, and the extension loops then grow it to the whole window. -/

theorem matchOK_iff (a b : List Char) (alo ahi blo bhi i j : Nat) :
    matchOK a b alo ahi blo bhi i j = true ↔
      alo ≤ i ∧ i < ahi ∧ i < a.length ∧ blo ≤ j ∧ j < bhi ∧ j < b.length ∧
        a.getD i ' ' = b.getD j ' ' ∧ popularB b (b.getD j ' ') = false := by
  simp only [matchOK, Bool.and_eq_true, decide_eq_true_eq, beq_iff_eq,
    Bool.not_eq_true']
  tauto

theorem runStart_iff (a b : List Char) (alo ahi blo bhi i j : Nat) :
    runStart a b alo ahi blo bhi i j = true ↔
      matchOK a b alo ahi blo bhi i j = true ∧
        ¬(alo < i ∧ blo < j ∧ matchOK a b alo ahi blo bhi (i - 1) (j - 1) = true) := by
  simp only [runStart, Bool.and_eq_true, Bool.not_eq_true', Bool.and_eq_false_iff,
    decide_eq_false_iff_not, decide_eq_true_eq]
  constructor
  · rintro ⟨h1, h2⟩
    refine ⟨h1, ?_⟩
    rintro ⟨g1, g2, g3⟩
    rcases h2 with (h | h) | h
    · exact h g1
    · exact h g2
    · rw [g3] at h
      cases h
  · rintro ⟨h1, h2⟩
    refine ⟨h1, ?_⟩
    by_cases g1 : alo < i
    · by_cases g2 : blo < j
      · right
        by_cases g3 : matchOK a b alo ahi blo bhi (i - 1) (j - 1) = true
        · exact absurd ⟨g1, g2, g3⟩ h2
        · simpa using g3
      · left; right; exact g2
    · left; left; exact g1

theorem matchOK_symm (t : List Char) {i j : Nat}
    (h : matchOK t t 0 t.length 0 t.length i j = true) :
    matchOK t t 0 t.length 0 t.length j i = true := by
  rw [matchOK_iff] at h ⊢
  obtain ⟨h1, h2, h3, h4, h5, h6, h7, h8⟩ := h
  refine ⟨h4, h5, h6, h1, h2, h3, h7.symm, ?_⟩
  rw [h7]
  exact h8

theorem matchOK_diag (t : List Char) {i j : Nat}
    (h : matchOK t t 0 t.length 0 t.length i j = true) :
    matchOK t t 0 t.length 0 t.length i i = true := by
  rw [matchOK_iff] at h ⊢
  obtain ⟨h1, h2, h3, h4, h5, h6, h7, h8⟩ := h
  refine ⟨h1, h2, h3, h1, h2, h3, rfl, ?_⟩
  rw [h7]
  exact h8

theorem runLenF_zero_of_not {a b : List Char} {alo ahi blo bhi i j : Nat}
    (hm : ¬ matchOK a b alo ahi blo bhi i j = true) (fuel : Nat) :
    runLenF a b alo ahi blo bhi fuel i j = 0 := by
  rcases fuel with _ | fuel
  · rfl
  · rw [runLenF, if_neg hm]

theorem runLenF_congr (t : List Char) :
    ∀ (f1 f2 i j : Nat),
      (t.length - i ≤ f1 ∨ t.length - j ≤ f1) →
      (t.length - i ≤ f2 ∨ t.length - j ≤ f2) →
      runLenF t t 0 t.length 0 t.length f1 i j =
        runLenF t t 0 t.length 0 t.length f2 i j := by
  intro f1
  induction f1 with
  | zero =>
    intro f2 i j h1 h2
    have hm : ¬ matchOK t t 0 t.length 0 t.length i j = true := by
      intro hm
      have hb := matchOK_bounds hm
      omega
    rw [runLenF_zero_of_not hm, runLenF_zero_of_not hm]
  | succ f1 ih =>
    intro f2 i j h1 h2
    by_cases hm : matchOK t t 0 t.length 0 t.length i j = true
    · have hb := matchOK_bounds hm
      rcases f2 with _ | f2
      · omega
      · rw [runLenF, runLenF, if_pos hm, if_pos hm,
          ih f2 (i + 1) (j + 1) (by omega) (by omega)]
    · rw [runLenF_zero_of_not hm, runLenF_zero_of_not hm]

theorem runLen_symm (t : List Char) (i j : Nat) :
    runLen t t 0 t.length 0 t.length i j = runLen t t 0 t.length 0 t.length j i := by
  have key : ∀ (fuel i j : Nat), runLenF t t 0 t.length 0 t.length fuel i j =
      runLenF t t 0 t.length 0 t.length fuel j i := by
    intro fuel
    induction fuel with
    | zero => intro i j; rfl
    | succ fuel ih =>
      intro i j
      rw [runLenF, runLenF]
      by_cases hm : matchOK t t 0 t.length 0 t.length i j = true
      · rw [if_pos hm, if_pos (matchOK_symm t hm), ih]
      · rw [if_neg hm, if_neg fun hs => hm (matchOK_symm t hs)]
  unfold runLen
  rw [key (t.length - i) i j]
  exact runLenF_congr t (t.length - i) (t.length - j) j i (Or.inr (le_refl _))
    (Or.inl (le_refl _))

theorem runStart_symm (t : List Char) {i j : Nat}
    (h : runStart t t 0 t.length 0 t.length i j = true) :
    runStart t t 0 t.length 0 t.length j i = true := by
  rw [runStart_iff] at h ⊢
  obtain ⟨h1, h2⟩ := h
  refine ⟨matchOK_symm t h1, ?_⟩
  rintro ⟨g1, g2, g3⟩
  exact h2 ⟨g2, g1, matchOK_symm t g3⟩

theorem matchOK_of_lt_runLen {a b : List Char} {alo ahi blo bhi : Nat} :
    ∀ (d i j : Nat), d < runLen a b alo ahi blo bhi i j →
      matchOK a b alo ahi blo bhi (i + d) (j + d) = true := by
  intro d
  induction d with
  | zero =>
    intro i j hd
    by_cases hm : matchOK a b alo ahi blo bhi i j = true
    · simpa using hm
    · rw [runLen_eq, if_neg hm] at hd
      cases hd
  | succ d ih =>
    intro i j hd
    by_cases hm : matchOK a b alo ahi blo bhi i j = true
    · rw [runLen_eq, if_pos hm] at hd
      have := ih (i + 1) (j + 1) (by omega)
      have he1 : i + 1 + d = i + (d + 1) := by omega
      have he2 : j + 1 + d = j + (d + 1) := by omega
      rw [he1, he2] at this
      exact this
    · rw [runLen_eq, if_neg hm] at hd
      cases hd

theorem le_runLen_of_matchOK_all {a b : List Char} {alo ahi blo bhi : Nat} :
    ∀ (k i j : Nat), (∀ d < k, matchOK a b alo ahi blo bhi (i + d) (j + d) = true) →
      k ≤ runLen a b alo ahi blo bhi i j := by
  intro k
  induction k with
  | zero => intro i j h; omega
  | succ k ih =>
    intro i j h
    have hm : matchOK a b alo ahi blo bhi i j = true := by
      have := h 0 (by omega)
      simpa using this
    rw [runLen_eq, if_pos hm]
    have := ih (i + 1) (j + 1) fun d hd => by
      have := h (d + 1) (by omega)
      have he1 : i + (d + 1) = i + 1 + d := by omega
      have he2 : j + (d + 1) = j + 1 + d := by omega
      rw [he1, he2] at this
      exact this
    omega

theorem exists_runStart {a b : List Char} {alo ahi blo bhi : Nat} :
    ∀ (i j : Nat), matchOK a b alo ahi blo bhi i j = true →
      ∃ s, s ≤ i ∧ s ≤ j ∧ runStart a b alo ahi blo bhi (i - s) (j - s) = true ∧
        runLen a b alo ahi blo bhi i j + s ≤
          runLen a b alo ahi blo bhi (i - s) (j - s) := by
  intro i
  induction i using Nat.strong_induction_on with
  | _ i ihs =>
    intro j hm
    by_cases hs : runStart a b alo ahi blo bhi i j = true
    · exact ⟨0, by omega, by omega, by simpa using hs, by simp⟩
    · have hprev : alo < i ∧ blo < j ∧
          matchOK a b alo ahi blo bhi (i - 1) (j - 1) = true := by
        rw [runStart_iff] at hs
        by_cases g : alo < i ∧ blo < j ∧ matchOK a b alo ahi blo bhi (i - 1) (j - 1) = true
        · exact g
        · exact absurd ⟨hm, g⟩ hs
      obtain ⟨hg1, hg2, hmp⟩ := hprev
      have hlen : runLen a b alo ahi blo bhi (i - 1) (j - 1) =
          runLen a b alo ahi blo bhi i j + 1 := by
        rw [runLen_eq, if_pos hmp]
        have e1 : i - 1 + 1 = i := by omega
        have e2 : j - 1 + 1 = j := by omega
        rw [e1, e2]
      obtain ⟨s', hs1, hs2, hs3, hs4⟩ := ihs (i - 1) (by omega) (j - 1) hmp
      refine ⟨s' + 1, by omega, by omega, ?_, ?_⟩
      · have e1 : i - (s' + 1) = i - 1 - s' := by omega
        have e2 : j - (s' + 1) = j - 1 - s' := by omega
        rw [e1, e2]
        exact hs3
      · have e1 : i - (s' + 1) = i - 1 - s' := by omega
        have e2 : j - (s' + 1) = j - 1 - s' := by omega
        rw [e1, e2]
        omega

/-- Lexicographic order on scan candidates: earlier in `a`, then earlier in
`b` — the order the scan enumerates (and tie-breaks) them in. -/
def lexLT (c d : Nat × Nat × Nat) : Prop :=
  c.1 < d.1 ∨ (c.1 = d.1 ∧ c.2.1 < d.2.1)

/-- The fold with strict improvement keeps the first candidate of maximal
size: the result is the initial value (nothing beat it), or an element of
the list that every earlier element is strictly below and no element
exceeds. -/
theorem foldl_betterRun_spec :
    ∀ (l : List (Nat × Nat × Nat)) (init : Nat × Nat × Nat),
      (l.foldl betterRun init = init ∧ ∀ c ∈ l, c.2.2 ≤ init.2.2) ∨
      (∃ l1 l2, l = l1 ++ (l.foldl betterRun init) :: l2 ∧
        init.2.2 < (l.foldl betterRun init).2.2 ∧
        (∀ c ∈ l1, c.2.2 < (l.foldl betterRun init).2.2) ∧
        (∀ c ∈ l, c.2.2 ≤ (l.foldl betterRun init).2.2)) := by
  intro l
  induction l with
  | nil => intro init; exact Or.inl ⟨rfl, fun c hc => absurd hc (List.not_mem_nil c)⟩
  | cons c rest ih =>
    intro init
    rw [List.foldl_cons]
    by_cases hlt : init.2.2 < c.2.2
    · have hbc : betterRun init c = c := by rw [betterRun, if_pos hlt]
      rw [hbc]
      rcases ih c with ⟨heq, hall⟩ | ⟨l1, l2, hsplit, hgt, hpre, hall⟩
      · right
        refine ⟨[], rest, ?_, ?_, ?_, ?_⟩
        · rw [heq]; rfl
        · rw [heq]; exact hlt
        · intro d hd; cases hd
        · intro d hd
          rw [heq]
          rcases List.mem_cons.mp hd with hd | hd
          · subst hd; exact le_refl _
          · exact hall d hd
      · right
        refine ⟨c :: l1, l2, ?_, ?_, ?_, ?_⟩
        · rw [List.cons_append, ← hsplit]
        · omega
        · intro d hd
          rcases List.mem_cons.mp hd with hd | hd
          · subst hd; omega
          · exact hpre d hd
        · intro d hd
          rcases List.mem_cons.mp hd with hd | hd
          · subst hd; omega
          · exact hall d hd
    · have hbc : betterRun init c = init := by rw [betterRun, if_neg hlt]
      rw [hbc]
      rcases ih init with ⟨heq, hall⟩ | ⟨l1, l2, hsplit, hgt, hpre, hall⟩
      · left
        refine ⟨heq, ?_⟩
        intro d hd
        rcases List.mem_cons.mp hd with hd | hd
        · subst hd; omega
        · exact hall d hd
      · right
        refine ⟨c :: l1, l2, ?_, hgt, ?_, ?_⟩
        · rw [List.cons_append, ← hsplit]
        · intro d hd
          rcases List.mem_cons.mp hd with hd | hd
          · subst hd; omega
          · exact hpre d hd
        · intro d hd
          rcases List.mem_cons.mp hd with hd | hd
          · subst hd; omega
          · exact hall d hd

theorem scanRuns_fst {a b : List Char} {alo ahi blo bhi : Nat} (i : Nat)
    {c : Nat × Nat × Nat}
    (hc : c ∈ (List.range' blo (bhi - blo)).filterMap fun j =>
      if runStart a b alo ahi blo bhi i j then
        some (i, j, runLen a b alo ahi blo bhi i j) else none) :
    c.1 = i := by
  simp only [List.mem_filterMap] at hc
  obtain ⟨j, hj, h⟩ := hc
  split at h
  · cases h; rfl
  · cases h

theorem scanRuns_sorted (a b : List Char) (alo ahi blo bhi : Nat) :
    (scanRuns a b alo ahi blo bhi).Pairwise lexLT := by
  unfold scanRuns
  have houter : (List.range' alo (ahi - alo)).Pairwise (fun x y => x < y) :=
    List.pairwise_lt_range' alo (ahi - alo) 1
  have hinner : ∀ i, ((List.range' blo (bhi - blo)).filterMap fun j =>
      if runStart a b alo ahi blo bhi i j then
        some (i, j, runLen a b alo ahi blo bhi i j) else none).Pairwise
        (fun c d => c.2.1 < d.2.1) := by
    intro i
    rw [List.pairwise_filterMap]
    refine List.Pairwise.imp ?_ (List.pairwise_lt_range' blo (bhi - blo) 1)
    intro j j' hjj c hc d hd
    split at hc
    · split at hd
      · cases hc; cases hd; exact hjj
      · cases hd
    · cases hc
  generalize hl : List.range' alo (ahi - alo) = l at houter
  clear hl
  induction l with
  | nil => exact List.Pairwise.nil
  | cons i rest ih =>
    rw [List.flatMap_cons, List.pairwise_append]
    obtain ⟨hhead, htail⟩ := List.pairwise_cons.mp houter
    refine ⟨?_, ih htail, ?_⟩
    · refine List.Pairwise.imp_of_mem ?_ (hinner i)
      intro c d hc hd hcd
      right
      rw [scanRuns_fst i hc, scanRuns_fst i hd]
      exact ⟨rfl, hcd⟩
    · intro c hc d hd
      left
      obtain ⟨i2, hi2, hd2⟩ := List.mem_flatMap.mp hd
      rw [scanRuns_fst i hc, scanRuns_fst i2 hd2]
      exact hhead i2 hi2

/-- Over equal sequences (`SequenceMatcher(None, t, t)`), the best block the
scan phase selects is diagonal: a mirrored or shifted off-diagonal run of
the same length always completes earlier in scan order, so the first
maximal run is on the diagonal. -/
theorem bestRun_diag (t : List Char) :
    (bestRun t t 0 t.length 0 t.length).1 = (bestRun t t 0 t.length 0 t.length).2.1 := by
  rcases foldl_betterRun_spec (scanRuns t t 0 t.length 0 t.length) (0, 0, 0) with
    ⟨heq, -⟩ | ⟨l1, l2, hsplit, hgt, hpre, hmax⟩
  · unfold bestRun
    rw [heq]
  · set r := bestRun t t 0 t.length 0 t.length with hr
    have hrfold : r = (scanRuns t t 0 t.length 0 t.length).foldl betterRun (0, 0, 0) := hr
    rw [← hrfold] at hsplit hgt hpre hmax
    have hrmem : r ∈ scanRuns t t 0 t.length 0 t.length := by
      rw [hsplit]
      exact List.mem_append.mpr (Or.inr (List.mem_cons_self _ _))
    obtain ⟨hrstart, hrlen⟩ := scanRuns_mem hrmem
    by_contra hne
    have hfirst : ∀ c ∈ scanRuns t t 0 t.length 0 t.length, lexLT c r → c.2.2 < r.2.2 := by
      intro c hc hlex
      rw [hsplit] at hc
      rcases List.mem_append.mp hc with hcl | hcr
      · exact hpre c hcl
      · rcases List.mem_cons.mp hcr with hceq | hcl2
        · subst hceq
          unfold lexLT at hlex
          omega
        · have hsorted := scanRuns_sorted t t 0 t.length 0 t.length
          rw [hsplit] at hsorted
          have h2 := (List.pairwise_append.mp hsorted).2.1
          have h3 := (List.pairwise_cons.mp h2).1 c hcl2
          unfold lexLT at hlex h3
          omega
    have hmOK : matchOK t t 0 t.length 0 t.length r.1 r.2.1 = true :=
      ((runStart_iff t t 0 t.length 0 t.length r.1 r.2.1).mp hrstart).1
    rcases Nat.lt_or_ge r.2.1 r.1 with hj | hj
    · have hs2 := runStart_symm t hrstart
      have hmem2 := scanRuns_complete hs2
      have hlex : lexLT (r.2.1, r.1, runLen t t 0 t.length 0 t.length r.2.1 r.1) r :=
        Or.inl hj
      have hlt := hfirst _ hmem2 hlex
      have hsym := runLen_symm t r.2.1 r.1
      simp only [] at hlt
      omega
    · have hij : r.1 < r.2.1 := by omega
      have hm0 : matchOK t t 0 t.length 0 t.length r.1 r.1 = true :=
        matchOK_diag t hmOK
      obtain ⟨s, hs1, hs2, hstart, hlen⟩ := exists_runStart r.1 r.1 hm0
      have hc0mem := scanRuns_complete hstart
      have hle := hmax _ hc0mem
      simp only [] at hle
      have hge : r.2.2 ≤ runLen t t 0 t.length 0 t.length r.1 r.1 := by
        apply le_runLen_of_matchOK_all
        intro d hd
        refine matchOK_diag t (matchOK_of_lt_runLen d r.1 r.2.1 ?_)
        omega
      have hs0 : s = 0 := by omega
      subst hs0
      have hlex : lexLT (r.1 - 0, r.1 - 0,
          runLen t t 0 t.length 0 t.length (r.1 - 0) (r.1 - 0)) r := by
        right
        constructor
        · simp
        · simpa using hij
      have hlt := hfirst _ hc0mem hlex
      simp only [Nat.sub_zero] at hlt hlen
      omega

theorem extendBackF_diag (t : List Char) :
    ∀ (fuel i k : Nat), i ≤ fuel → i + k ≤ t.length →
      extendBackF t t 0 0 fuel i i k = (0, 0, i + k) := by
  intro fuel
  induction fuel with
  | zero =>
    intro i k h1 h2
    have hi : i = 0 := by omega
    subst hi
    show (0, 0, k) = ((0 : Nat), (0 : Nat), 0 + k)
    rw [Nat.zero_add]
  | succ fuel ih =>
    intro i k h1 h2
    rcases Nat.eq_zero_or_pos i with hi | hi
    · subst hi
      rw [extendBackF, if_neg (by omega), Nat.zero_add]
    · rw [extendBackF, if_pos ⟨hi, hi, by omega, by omega, rfl⟩]
      have := ih (i - 1) (k + 1) (by omega) (by omega)
      rw [this]
      have he : i - 1 + (k + 1) = i + k := by omega
      rw [he]

theorem extendFwdF_diag (t : List Char) :
    ∀ (fuel k : Nat), t.length - k ≤ fuel → k ≤ t.length →
      extendFwdF t t t.length t.length 0 0 fuel k = (0, 0, t.length) := by
  intro fuel
  induction fuel with
  | zero =>
    intro k h1 h2
    have hk : k = t.length := by omega
    subst hk
    rfl
  | succ fuel ih =>
    intro k h1 h2
    rcases Nat.lt_or_ge k t.length with hk | hk
    · rw [extendFwdF, if_pos ⟨by omega, by omega, by omega, by omega, rfl⟩]
      exact ih (k + 1) (by omega) (by omega)
    · have hk2 : k = t.length := by omega
      subst hk2
      rw [extendFwdF, if_neg (by omega)]

/-- Over equal sequences, `find_longest_match` on the whole window returns
the whole window: the best scan block is diagonal, and the two extension
loops extend a diagonal block of equal sequences to the full range. -/
theorem findLongestMatch_self (t : List Char) :
    findLongestMatch t t 0 t.length 0 t.length = (0, 0, t.length) := by
  have hd := bestRun_diag t
  have hb := @bestRun_bounded t t 0 t.length 0 t.length (Nat.zero_le _) (Nat.zero_le _)
  show extendFwd t t t.length t.length
      (extendBack t t 0 0 (bestRun t t 0 t.length 0 t.length).1
        (bestRun t t 0 t.length 0 t.length).2.1
        (bestRun t t 0 t.length 0 t.length).2.2).1
      (extendBack t t 0 0 (bestRun t t 0 t.length 0 t.length).1
        (bestRun t t 0 t.length 0 t.length).2.1
        (bestRun t t 0 t.length 0 t.length).2.2).2.1
      (extendBack t t 0 0 (bestRun t t 0 t.length 0 t.length).1
        (bestRun t t 0 t.length 0 t.length).2.1
        (bestRun t t 0 t.length 0 t.length).2.2).2.2 = (0, 0, t.length)
  rcases hBv : bestRun t t 0 t.length 0 t.length with ⟨i0, j0, k0⟩
  rw [hBv] at hd hb
  have hd2 : i0 = j0 := hd
  subst hd2
  rw [bounded_mk] at hb
  have h1 : extendBack t t 0 0 i0 i0 k0 = (0, 0, i0 + k0) :=
    extendBackF_diag t i0 i0 k0 (le_refl i0) (by omega)
  show extendFwd t t t.length t.length (extendBack t t 0 0 i0 i0 k0).1
    (extendBack t t 0 0 i0 i0 k0).2.1 (extendBack t t 0 0 i0 i0 k0).2.2 =
    (0, 0, t.length)
  rw [h1]
  show extendFwd t t t.length t.length 0 0 (i0 + k0) = (0, 0, t.length)
  unfold extendFwd
  exact extendFwdF_diag t (t.length - (0 + (i0 + k0))) (i0 + k0) (by omega) (by omega)

theorem matchingBlocksF_empty {a b : List Char} {alo ahi blo bhi : Nat}
    (h : ¬(alo < ahi ∧ blo < bhi)) (fuel : Nat) :
    matchingBlocksF a b fuel alo ahi blo bhi = [] := by
  rcases fuel with _ | fuel
  · rfl
  · rw [matchingBlocksF, if_neg h]

theorem matchingBlocks_self (t : List Char) (hn : t.length ≠ 0) :
    matchingBlocks t t 0 t.length 0 t.length = [(0, 0, t.length)] := by
  unfold matchingBlocks
  rcases he : t.length - 0 + (t.length - 0) with _ | fuel
  · omega
  · rw [matchingBlocksF, if_pos ⟨by omega, by omega⟩, findLongestMatch_self t]
    rw [if_neg (by simpa using hn)]
    show matchingBlocksF t t fuel 0 0 0 0 ++
      (0, 0, t.length) :: matchingBlocksF t t fuel (0 + t.length) t.length
        (0 + t.length) t.length = _
    rw [matchingBlocksF_empty (by omega), matchingBlocksF_empty (by omega)]
    rfl

theorem totalMatched_self (t : List Char) : totalMatched t t = t.length := by
  rcases Nat.eq_zero_or_pos t.length with hn | hn
  · have ht : t = [] := List.length_eq_zero.mp hn
    subst ht
    rfl
  · unfold totalMatched
    rw [matchingBlocks_self t (by omega)]
    simp

theorem ratioScore_self (t : List Char) : ratioScore t t = 1 := by
  unfold ratioScore
  rcases Nat.eq_zero_or_pos t.length with hn | hn
  · rw [if_pos (by omega)]
  · rw [if_neg (by omega), totalMatched_self]
    have hnq : ((t.length : ℚ)) ≠ 0 := by
      exact_mod_cast Nat.pos_iff_ne_zero.mp hn
    field_simp
    ring

theorem exactoScore_self (t : List Char) : exactoScore t t = 100 := by
  unfold exactoScore
  rw [ratioScore_self]
  norm_num

theorem vocabPair_symm (a b : List Char) : vocabPair a b = vocabPair b a := by
  unfold vocabPair
  rw [List.toFinset_append, List.toFinset_append, Finset.union_comm]

theorem dfPair_symm (a b t : List Char) : dfPair a b t = dfPair b a t := by
  unfold dfPair
  omega

theorem idfPair_symm (a b t : List Char) : idfPair a b t = idfPair b a t := by
  unfold idfPair
  rw [dfPair_symm]

theorem dotAB_symm (a b : List Char) : dotAB a b = dotAB b a := by
  unfold dotAB
  rw [vocabPair_symm]
  refine Finset.sum_congr rfl fun t _ => ?_
  unfold weightA weightB
  rw [idfPair_symm a b]
  ring

theorem dotAA_dotBB_symm (a b : List Char) : dotAA a b = dotBB b a := by
  unfold dotAA dotBB
  rw [vocabPair_symm]
  refine Finset.sum_congr rfl fun t _ => ?_
  unfold weightA weightB
  rw [idfPair_symm a b]

theorem cosSim_symm (a b : List Char) : cosSim a b = cosSim b a := by
  unfold cosSim
  rw [dotAB_symm, dotAA_dotBB_symm, ← dotAA_dotBB_symm b a, mul_comm]

theorem statSimE_symm (a b : List Char) : statSimE a b = statSimE b a := by
  unfold statSimE
  rw [vocabPair_symm, cosSim_symm]

/-- C9, counterexample to the claim as stated, in two parts.
(i) The lexical score is *not* symmetric: `difflib`'s tie rule prefers the
block starting earliest in `a`, and the divide-and-conquer recursion around
the chosen block can discard different secondary matches after swapping.
For `a = "xxpyyqz"`, `b = "yyrzsxx"` the matched totals are 2 vs 3, giving
scores 200/7 = 28.57… one way and 300/7 = 42.86… the other — far outside
floating tolerance.  (ii) The statistical identity `score(t,t) = 100` fails
for a non-empty text with no length-≥2 token: for `t = "a"` the vectoriser
raises `empty vocabulary` instead of returning 100. -/
theorem c9_counterexample :
    exactoScore "xxpyyqz".toList "yyrzsxx".toList = 200 / 7 ∧
    exactoScore "yyrzsxx".toList "xxpyyqz".toList = 300 / 7 ∧
    exactoScore "xxpyyqz".toList "yyrzsxx".toList ≠
      exactoScore "yyrzsxx".toList "xxpyyqz".toList ∧
    ("a".toList ≠ [] ∧ statSimE "a".toList "a".toList = .error ()) := by
  have h1 : totalMatched "xxpyyqz".toList "yyrzsxx".toList = 2 := by decide
  have h2 : totalMatched "yyrzsxx".toList "xxpyyqz".toList = 3 := by decide
  have e1 : exactoScore "xxpyyqz".toList "yyrzsxx".toList = 200 / 7 := by
    unfold exactoScore ratioScore
    rw [h1]
    norm_num
  have e2 : exactoScore "yyrzsxx".toList "xxpyyqz".toList = 300 / 7 := by
    unfold exactoScore ratioScore
    rw [h2]
    norm_num
  refine ⟨e1, e2, ?_, by decide, ?_⟩
  · rw [e1, e2]
    norm_num
  · rw [statSimE, if_pos (by decide)]

/-- C9 (amended): for every text `t`, the lexical score of `(t, t)` is 100
(including texts long enough for `difflib`'s autojunk heuristic); the
statistical score of `(t, t)` is 100 whenever the pair's vocabulary is
non-empty (with an empty vocabulary the vectoriser raises instead — see the
counterexample); the statistical comparator is exactly symmetric, including
its error behaviour; the lexical comparator is *not* symmetric in general. -/
theorem c9_identity_symmetry :
    (∀ t : List Char, t ≠ [] → exactoScore t t = 100) ∧
    (∀ t : List Char, vocabPair t t ≠ ∅ →
      tfidfScore t t = 100 ∧ statSimE t t = .ok 100) ∧
    (∀ a b : List Char, statSimE a b = statSimE b a) := by
  refine ⟨fun t _ => exactoScore_self t, fun t hv => ?_, statSimE_symm⟩
  have h100 := tfidfScore_eq_100_of_perm (List.Perm.refl (tokensOf t)) hv
  refine ⟨h100, ?_⟩
  rw [statSimE, if_neg hv]
  unfold tfidfScore at h100
  rw [h100]

/-- C9, witness: identity scores on the concrete text "hello world", and
symmetry on a concrete pair. -/
theorem c9_identity_symmetry_witness :
    exactoScore "hello world".toList "hello world".toList = 100 ∧
    tfidfScore "hello world".toList "hello world".toList = 100 ∧
    statSimE "hello world".toList "hello world".toList = .ok 100 ∧
    statSimE "abc def".toList "ghi jkl".toList =
      statSimE "ghi jkl".toList "abc def".toList :=
  ⟨c9_identity_symmetry.1 "hello world".toList (by decide),
   (c9_identity_symmetry.2.1 "hello world".toList (by decide)).1,
   (c9_identity_symmetry.2.1 "hello world".toList (by decide)).2,
   c9_identity_symmetry.2.2 "abc def".toList "ghi jkl".toList⟩
